import Mathlib

/-!
# Verification of the bestagons puzzle engine

A shallow embedding of the hexagonal-puzzle generator/solver (Rust sources
under `src/`), together with proofs checking the natural-language
specification against it.

Conventions of the embedding:
* Rust `i32` quantities (coordinates, distances, radii) are modelled as `Int`;
  no arithmetic in the embedded fragment approaches the `i32` range, so
  overflow is not modelled for them.
* Rust `u32` counts (`type Count = u32` in `puzzle/mod.rs`) are modelled as
  `Nat`; subtraction, where underflow genuinely matters, is modelled both with
  release-profile wrapping semantics (`Clue.sub`, reduction modulo `2^32`) and
  debug-profile checked semantics (`Clue.subChecked`, `none` on underflow,
  where the Rust build with overflow checks panics).
* `HashMap` tables are modelled as association lists with first-match lookup
  and replace-or-append insertion; iteration order of the model is the
  insertion order (the Rust iteration order is arbitrary, and no claim below
  depends on a particular order).
* Rust `.unwrap()` on lookups/constructors is modelled by `Option`: a `none`
  result of the model corresponds exactly to a panic of the source.
* The stateful iterators (`RingIterator`, `HexagonIterator`) and the solver
  loops are modelled as functions producing the full list of yielded items,
  with explicit fuel where the Rust loop's termination is not structural.
-/

namespace Bestagons

/-- The three cell colors (`Cell` in `src/puzzle/mod.rs`). -/
inductive Cell where
  | Red
  | Green
  | Blue
deriving DecidableEq, Repr

/-- `Cell::all` / the `CELLS` constant: the colors in enumeration order. -/
def Cell.all : List Cell := [Cell.Red, Cell.Green, Cell.Blue]

/-- The `u32` modulus: Rust `Count` values live in `[0, 2^32)`. -/
def U32 : Nat := 2 ^ 32

/-- `Clue` in `src/puzzle/mod.rs`: three per-color counts over a segment. -/
structure Clue where
  red : Nat
  green : Nat
  blue : Nat
deriving DecidableEq, Repr

namespace Clue

/-- `Clue::zero`. -/
def zero : Clue := ⟨0, 0, 0⟩

/-- `Clue::is_empty`. -/
def is_empty (c : Clue) : Bool := c.red == 0 && c.green == 0 && c.blue == 0

/-- `Clue::count`: the sum of the three counts (a `u32` sum in the source,
hence reduced modulo `2^32`; the source adds red, then blue, then green). -/
def count (c : Clue) : Nat := (c.red + c.blue + c.green) % U32

/-- `Clue::cell`: the count for one color. -/
def cell (c : Clue) : Cell → Nat
  | Cell.Red => c.red
  | Cell.Green => c.green
  | Cell.Blue => c.blue

end Clue

/-- Rust `Iterator::min_by_key` on a list: among elements with the least key,
the **first** one is returned (per the Rust documentation).  `none` on an
empty iterator; otherwise fold from the first element, replacing the champion
only on a strictly smaller key. -/
def minByKey {α : Type} (f : α → Nat) : List α → Option α
  | [] => none
  | x :: t => some (t.foldl (fun a y => if f y < f a then y else a) x)

/-- Rust `Iterator::max_by_key` on a list: among elements with the greatest
key, the **last** one is returned (per the Rust documentation).  `none` on an
empty iterator; otherwise fold from the first element, replacing the champion
on an equal-or-greater key. -/
def maxByKey {α : Type} (f : α → Nat) : List α → Option α
  | [] => none
  | x :: t => some (t.foldl (fun a y => if f a ≤ f y then y else a) x)

namespace Clue

/-- `Clue::min_cell`: the color with the lowest non-zero count. -/
def min_cell (c : Clue) : Option Cell :=
  minByKey c.cell (Cell.all.filter (fun x => decide (0 < c.cell x)))

/-- `Clue::max_cell`: the color with the highest non-zero count. -/
def max_cell (c : Clue) : Option Cell :=
  maxByKey c.cell (Cell.all.filter (fun x => decide (0 < c.cell x)))

/-- `Clue::from_cells`: count the colors of a list of cells. -/
def from_cells (cells : List Cell) : Clue :=
  cells.foldl
    (fun c x =>
      match x with
      | Cell.Red => { c with red := c.red + 1 }
      | Cell.Green => { c with green := c.green + 1 }
      | Cell.Blue => { c with blue := c.blue + 1 })
    zero

/-- `impl Add for Clue`: pointwise `u32` addition. -/
def add (a b : Clue) : Clue :=
  ⟨(a.red + b.red) % U32, (a.green + b.green) % U32, (a.blue + b.blue) % U32⟩

/-- `impl Sub for Clue` under the release profile: pointwise `u32` wrapping
subtraction. -/
def sub (a b : Clue) : Clue :=
  ⟨(a.red + U32 - b.red) % U32, (a.green + U32 - b.green) % U32,
    (a.blue + U32 - b.blue) % U32⟩

/-- `impl Sub for Clue` under the debug profile (overflow checks on): the
subtraction panics — modelled as `none` — as soon as one component
underflows. -/
def subChecked (a b : Clue) : Option Clue :=
  if b.red ≤ a.red ∧ b.green ≤ a.green ∧ b.blue ≤ a.blue then
    some ⟨a.red - b.red, a.green - b.green, a.blue - b.blue⟩
  else none

/-- `Clue::is_solved`: exactly one color has a non-zero count. -/
def is_solved (c : Clue) : Bool :=
  ([c.red, c.green, c.blue].filter (fun n => decide (0 < n))).length == 1

end Clue

/-- `Hint` in `src/puzzle/mod.rs`: a per-color possibility mask. -/
structure Hint where
  red : Bool
  green : Bool
  blue : Bool
deriving DecidableEq, Repr

namespace Hint

/-- `Hint::any`. -/
def any : Hint := ⟨true, true, true⟩

/-- `Hint::none`. -/
def noneH : Hint := ⟨false, false, false⟩

/-- `Hint::cell`. -/
def cell (h : Hint) : Cell → Bool
  | Cell.Red => h.red
  | Cell.Green => h.green
  | Cell.Blue => h.blue

/-- `Hint::solution`: the single possible color, if exactly one remains. -/
def solution (h : Hint) : Option Cell :=
  match h.red, h.green, h.blue with
  | true, false, false => some Cell.Red
  | false, true, false => some Cell.Green
  | false, false, true => some Cell.Blue
  | _, _, _ => none

/-- `Hint::clue`: one count per still-possible color. -/
def clue (h : Hint) : Clue :=
  ⟨if h.red then 1 else 0, if h.green then 1 else 0, if h.blue then 1 else 0⟩

/-- `impl BitAnd for Hint`. -/
def and (a b : Hint) : Hint := ⟨a.red && b.red, a.green && b.green, a.blue && b.blue⟩

end Hint

/-- `Clue::hint`: each color with a non-zero count is possible. -/
def Clue.hint (c : Clue) : Hint :=
  ⟨decide (0 < c.red), decide (0 < c.green), decide (0 < c.blue)⟩

/-- `Position` in `src/grid/mod.rs`: axial hex coordinates, two free integer
components, the third derived. -/
structure Position where
  x : Int
  y : Int
deriving DecidableEq, Repr

namespace Position

/-- `Position::zero`. -/
def zero : Position := ⟨0, 0⟩

/-- `Position::z`: the derived third coordinate. -/
def z (p : Position) : Int := -p.x - p.y

/-- `impl Add for Position`. -/
def add (p q : Position) : Position := ⟨p.x + q.x, p.y + q.y⟩

/-- `impl Neg for Position`. -/
def neg (p : Position) : Position := ⟨-p.x, -p.y⟩

/-- `impl Sub for Position`. -/
def sub (p q : Position) : Position := ⟨p.x - q.x, p.y - q.y⟩

/-- `impl Mul<Distance> for Position`. -/
def mul (p : Position) (d : Int) : Position := ⟨p.x * d, p.y * d⟩

/-- `Position::distance`: the hex distance from the zero position. -/
def distance (p : Position) : Int := max (max |p.x| |p.y|) |p.z|

end Position

/-- `Axis` in `src/grid/mod.rs`. -/
inductive Axis where
  | X
  | Y
  | Z
deriving DecidableEq, Repr

/-- `Position::axis`. -/
def Position.axis (p : Position) : Axis → Int
  | Axis.X => p.x
  | Axis.Y => p.y
  | Axis.Z => p.z

/-- `Direction` in `src/grid/mod.rs`: the six unit steps. -/
inductive Direction where
  | XY
  | XZ
  | YX
  | YZ
  | ZX
  | ZY
deriving DecidableEq, Repr

namespace Direction

/-- The `DIRECTIONS` constant. -/
def all : List Direction := [XY, XZ, YX, YZ, ZX, ZY]

/-- The `NORMALIZED_DIRECTIONS` constant. -/
def normalizedL : List Direction := [XY, YZ, ZX]

/-- `Direction::axes`: (positive, neutral, negative) axes. -/
def axes : Direction → Axis × Axis × Axis
  | XY => (Axis.X, Axis.Z, Axis.Y)
  | XZ => (Axis.X, Axis.Y, Axis.Z)
  | YX => (Axis.Y, Axis.Z, Axis.X)
  | YZ => (Axis.Y, Axis.X, Axis.Z)
  | ZX => (Axis.Z, Axis.Y, Axis.X)
  | ZY => (Axis.Z, Axis.X, Axis.Y)

/-- `Direction::positive_axis`. -/
def positive_axis (d : Direction) : Axis := d.axes.1

/-- `Direction::neutral_axis`. -/
def neutral_axis (d : Direction) : Axis := d.axes.2.1

/-- `Direction::negative_axis`. -/
def negative_axis (d : Direction) : Axis := d.axes.2.2

/-- `Direction::opposite`. -/
def opposite : Direction → Direction
  | XY => YX
  | XZ => ZX
  | YX => XY
  | YZ => ZY
  | ZX => XZ
  | ZY => YZ

/-- `Direction::normalize`: the three non-canonical directions map to their
opposites. -/
def normalize (d : Direction) : Direction :=
  match d with
  | YX => d.opposite
  | ZY => d.opposite
  | XZ => d.opposite
  | other => other

/-- `Direction::rotate`: one clockwise step in the fixed cyclic order. -/
def rotate : Direction → Direction
  | XY => XZ
  | XZ => YZ
  | YZ => YX
  | YX => ZX
  | ZX => ZY
  | ZY => XY

/-- `Direction::rotate_back`. -/
def rotate_back (d : Direction) : Direction := d.opposite.rotate.rotate

/-- `impl From<Direction> for Position`: the unit step of a direction. -/
def unit : Direction → Position
  | XY => ⟨1, -1⟩
  | XZ => ⟨1, 0⟩
  | YX => ⟨-1, 1⟩
  | YZ => ⟨0, 1⟩
  | ZX => ⟨-1, 0⟩
  | ZY => ⟨0, -1⟩

end Direction

/-- `Line` in `src/line.rs` (the `grid::line` module): an origin plus a
direction. -/
structure Line where
  origin : Position
  direction : Direction
deriving DecidableEq, Repr

namespace Line

/-- `Line::position`: the point `distance` steps along the line. -/
def position (l : Line) (distance : Int) : Position :=
  l.origin.add (l.direction.unit.mul distance)

/-- `Line::normalize`: shift the origin so that its coordinate on the
direction's positive axis is zero, and canonicalize the direction. -/
def normalize (l : Line) : Line :=
  let direction := l.direction.normalize
  let deviation := l.origin.axis direction.positive_axis
  let origin := l.origin.sub (direction.unit.mul deviation)
  ⟨origin, direction⟩

end Line

/-- `Segment` in `src/segment.rs` (the `grid::segment` module): a line plus a
length. -/
structure Segment where
  line : Line
  length : Int
deriving DecidableEq, Repr

namespace Segment

/-- `Segment::new`: fails (`SegmentError::InsufficientLength`) unless the
length is positive. -/
def new (origin : Position) (length : Int) (direction : Direction) : Option Segment :=
  if 0 < length then some ⟨⟨origin, direction⟩, length⟩ else none

/-- `Segment::start`. -/
def start (s : Segment) : Position := s.line.origin

/-- `Segment::end`. -/
def endP (s : Segment) : Position := s.line.position (s.length - 1)

/-- `Segment::direction`. -/
def direction (s : Segment) : Direction := s.line.direction

/-- `Segment::position`: in-range distances only. -/
def position (s : Segment) (distance : Int) : Option Position :=
  if 0 ≤ distance ∧ distance < s.length then some (s.line.position distance) else none

/-- `impl IntoIterator for Segment`: the positions at distances
`0, 1, …, length−1` along the line (`line.into_iter().take(length)`). -/
def positions (s : Segment) : List Position :=
  (List.range s.length.toNat).map (fun i : Nat => s.line.position (i : Int))

end Segment

/-- `Ring` in `src/grid/ring.rs`: an origin plus a radius. -/
structure Ring where
  origin : Position
  radius : Int
deriving DecidableEq, Repr

namespace Ring

/-- `Ring::new`: fails (`RingError::InsufficientRadius`) unless the radius is
positive. -/
def new (origin : Position) (radius : Int) : Option Ring :=
  if 0 < radius then some ⟨origin, radius⟩ else none

/-- `Ring::corner`. -/
def corner (r : Ring) (d : Direction) : Position :=
  r.origin.add (d.unit.mul r.radius)

/-- `Ring::segment`: the side starting at the direction's corner and running
two clockwise rotations from it, of length `radius`.  The `.unwrap()` in the
source is the `Option`: it panics exactly when `radius ≤ 0`. -/
def segment (r : Ring) (d : Direction) : Option Segment :=
  Segment.new (r.corner d) r.radius d.rotate.rotate

end Ring

/-- One step of `RingIterator::next` unrolled to the list of all yielded
positions: emit the current side's positions, then stop if the next side's
direction has wrapped around to `YZ`, else continue with the next side
(`Segment::new(line.position(step), length, direction.rotate()).unwrap()`).
Fuel bounds the number of sides; six is always enough because `rotate` has
order six. -/
def ringSides (s : Segment) : Nat → Option (List Position)
  | 0 => none
  | fuel + 1 =>
    let ps := s.positions
    if s.direction.rotate = Direction.YZ then some ps
    else
      match Segment.new (s.line.position s.length) s.length s.direction.rotate with
      | none => none
      | some s2 => (ringSides s2 fuel).map (fun rest => ps ++ rest)

/-- `impl IntoIterator for Ring` (`RingIterator`): all positions of the ring,
starting at the `XY` corner, side after side. -/
def Ring.posList (r : Ring) : Option (List Position) :=
  match r.segment Direction.XY with
  | none => none
  | some s0 => ringSides s0 6

/-- `Hexagon` in `src/grid/hexagon.rs`: an origin plus a radius. -/
structure Hexagon where
  origin : Position
  radius : Int
deriving DecidableEq, Repr

namespace Hexagon

/-- `Hexagon::new`: fails (`HexagonError::InsufficientRadius`) unless the
radius is positive. -/
def new (origin : Position) (radius : Int) : Option Hexagon :=
  if 0 < radius then some ⟨origin, radius⟩ else none

/-- Modelled from the spec: `Hexagon::zero` is called by `Board::new` but its
definition is missing from the sources under `src/`; following the sibling
constructor `Ring::zero` and the spec's "created empty" board of a given
radius, it places a hexagon of the given radius at the zero position. -/
def zeroH (radius : Int) : Option Hexagon :=
  Hexagon.new Position.zero radius

/-- `Hexagon::ring`. -/
def ring (h : Hexagon) (radius : Int) : Option Ring :=
  if radius ≤ 0 ∨ h.radius < radius then none
  else Ring.new h.origin radius

/-- `Hexagon::contains`. -/
def contains (h : Hexagon) (p : Position) : Bool :=
  decide ((p.sub h.origin).distance ≤ h.radius)

end Hexagon

/-- The backward walk in `Hexagon::segment`:
`line.into_iter().rev().take_while(contains).last().unwrap_or(position)`.
Having already walked `t` steps back (all of them inside the hexagon), keep
stepping while the next point back is still contained; the result is the last
contained point (the chord's start).  Fuel bounds the walk; the caller
supplies enough for the walk to leave the hexagon. -/
def walkBack (h : Hexagon) (l : Line) : Int → Nat → Option Position
  | _, 0 => none
  | t, fuel + 1 =>
    if h.contains (l.position (-(t + 1))) then walkBack h l (t + 1) fuel
    else some (l.position (-t))

/-- The inclusive integer range `lo..=hi` as a list. -/
def intRange (lo hi : Int) : List Int :=
  (List.range (hi + 1 - lo).toNat).map (fun i : Nat => lo + (i : Int))

namespace Hexagon

/-- `Hexagon::segment`: the chord of the hexagon at the given signed offset,
perpendicular to the given direction.  `none` when `|distance| > radius`
(the source's `None`) or — never reached from valid hexagons — when the
backward walk's fuel runs out or the computed length is not positive (the
source's `.unwrap()`s). -/
def segment (h : Hexagon) (distance : Int) (direction : Direction) : Option Segment :=
  if h.radius < |distance| then none
  else
    let position := h.origin.add (direction.rotate.unit.mul distance)
    let line : Line := ⟨position, direction⟩
    match walkBack h line 0 (2 * h.radius.toNat + 2) with
    | none => none
    | some start =>
      Segment.new start (h.radius * 2 - |distance| + 1) direction

/-- `Hexagon::segments`: all chords for distances `−radius..=radius`, with
their offsets.  The source `.unwrap()`s each chord. -/
def segments (h : Hexagon) (direction : Direction) : Option (List (Int × Segment)) :=
  (intRange (-h.radius) h.radius).mapM
    (fun d => (h.segment d direction).map (fun s => (d, s)))

/-- `impl IntoIterator for Hexagon` (`HexagonIterator`): the origin first,
then the rings of radius `1..=radius`.  `HexagonIterator::new` `.unwrap()`s
`ring(1)`, so iteration panics — `none` — when the radius is below one. -/
def posList (h : Hexagon) : Option (List Position) :=
  if h.radius < 1 then none
  else
    ((List.range h.radius.toNat).mapM
        (fun k : Nat => Ring.posList ⟨h.origin, (k : Int) + 1⟩)).map
      (fun rings => h.origin :: rings.flatten)

end Hexagon

/-- Association-list lookup (`HashMap::get`): first matching key. -/
def alookup {κ ν : Type} [DecidableEq κ] (k : κ) : List (κ × ν) → Option ν
  | [] => none
  | (k1, v) :: t => if k1 = k then some v else alookup k t

/-- Association-list insertion (`HashMap::insert`): replace the binding in
place if the key is present, append otherwise. -/
def ainsert {κ ν : Type} [DecidableEq κ] (k : κ) (v : ν) : List (κ × ν) → List (κ × ν)
  | [] => [(k, v)]
  | (k1, v1) :: t => if k1 = k then (k, v) :: t else (k1, v1) :: ainsert k v t

/-- `Board` in `src/puzzle/board.rs`: a hexagon boundary plus a sparse map
from positions to cells. -/
structure Board where
  hexagon : Hexagon
  cells : List (Position × Cell)
deriving DecidableEq, Repr

/-- The clue table key type: a normalized direction and a signed offset. -/
abbrev ClueKey : Type := Direction × Int

namespace Board

/-- `Board::new`: an empty board bounded by `Hexagon::zero(radius)`. -/
def new (radius : Int) : Option Board :=
  (Hexagon.zeroH radius).map (fun h => ⟨h, []⟩)

/-- `Board::insert`: unconditional map insertion — the boundary is **not**
checked. -/
def insert (b : Board) (position : Position) (cell : Cell) : Board :=
  { b with cells := ainsert position cell b.cells }

/-- `Board::from_cells`: start empty, insert every supplied pair. -/
def from_cells (radius : Int) (cells : List (Position × Cell)) : Option Board :=
  (new radius).map (fun b => cells.foldl (fun b pc => b.insert pc.1 pc.2) b)

/-- `Board::random`: fill every position of the hexagon with a drawn color.
The randomness source is modelled as the stream of drawn colors, indexed by
draw order; iterating the hexagon panics — `none` — when the radius is below
one. -/
def random (draws : Nat → Cell) (radius : Int) : Option Board := do
  let b ← new radius
  let ps ← b.hexagon.posList
  some (ps.enum.foldl (fun b ip => b.insert ip.2 (draws ip.1)) b)

/-- `Board::random_from_hints`: insert a drawn color for every supplied
(position, hint) pair.  The draw `hint.random(rng).unwrap()` is modelled by a
chooser indexed by draw order; its `none` is the source's panic on a hint
with no possible color. -/
def random_from_hints (choose : Nat → Hint → Option Cell) (radius : Int)
    (hints : List (Position × Hint)) : Option Board := do
  let b ← new radius
  hints.enum.foldlM
    (fun b ih => (choose ih.1 ih.2.2).map (fun c => b.insert ih.2.1 c)) b

/-- `Board::is_solved`: every position of the boundary has a cell. -/
def is_solved (b : Board) : Option Bool :=
  b.hexagon.posList.map (fun ps => ps.all (fun p => (alookup p b.cells).isSome))

/-- `Board::segment`: the (position, optional cell) pairs of one chord. -/
def segment (b : Board) (distance : Int) (direction : Direction) :
    Option (List (Position × Option Cell)) :=
  (b.hexagon.segment distance direction).map
    (fun s => s.positions.map (fun p => (p, alookup p b.cells)))

/-- `Board::clues`: for every normalized direction and every offset, the clue
counting the currently assigned cells of that chord. -/
def clues (b : Board) : Option (List (ClueKey × Clue)) :=
  (Direction.normalizedL.mapM
      (fun dir =>
        (b.hexagon.segments dir).map
          (fun segs =>
            segs.map
              (fun ds =>
                ((dir, ds.1),
                  Clue.from_cells
                    (ds.2.positions.filterMap (fun p => alookup p b.cells))))))).map
    List.flatten

end Board

/-- `Puzzle` in `src/puzzle/puzzle.rs`: a board plus a frozen clue table. -/
structure Puzzle where
  board : Board
  clues : List (ClueKey × Clue)
deriving DecidableEq, Repr

namespace Puzzle

/-- Build a clue table by inserting the entries of a list in order
(the `for (key, clue) in clue_iterator { clues.insert(key, clue) }` loops). -/
def clueTable (entries : List (ClueKey × Clue)) : List (ClueKey × Clue) :=
  entries.foldl (fun t kc => ainsert kc.1 kc.2 t) []

/-- `Puzzle::new`: the clue table built from the supplied iterator is built
into a local `clues` map and then **discarded** — the stored table is the
fresh `HashMap::new()` from the struct literal. -/
def new (board : Board) (clue_iterator : List (ClueKey × Clue)) : Puzzle :=
  let _clues := clueTable clue_iterator
  ⟨board, []⟩

/-- `Puzzle::with_clues`: derive the clue table from the board itself. -/
def with_clues (board : Board) : Option Puzzle :=
  board.clues.map (fun entries => ⟨board, clueTable entries⟩)

/-- `Puzzle::clear`: replace the board with an empty one of the same radius,
keeping the clue table.  The `.unwrap()` on `Board::new` is the `Option`. -/
def clear (p : Puzzle) : Option Puzzle :=
  (Board.new p.board.hexagon.radius).map (fun b => ⟨b, p.clues⟩)

end Puzzle

/-- `Solver` in `src/puzzle/solver.rs`: a puzzle plus an evolving solution
board. -/
structure Solver where
  puzzle : Puzzle
  solution : Board
deriving DecidableEq, Repr

namespace Solver

/-- `Solver::new`: the solution starts as a copy of the puzzle's board. -/
def new (p : Puzzle) : Solver := ⟨p, p.board⟩

/-- The update loop of `Solver::computed_clues`: for each (key, clue) derived
from the solution board, subtract it from the puzzle's clue for the same key.
`clues.get(&key).cloned().unwrap()` panics — `none` — when the puzzle's table
lacks the key. -/
def updateClues (table : List (ClueKey × Clue)) :
    List (ClueKey × Clue) → Option (List (ClueKey × Clue))
  | [] => some table
  | (key, solution_clue) :: rest =>
    match alookup key table with
    | none => none
    | some puzzle_clue => updateClues (ainsert key (puzzle_clue.sub solution_clue) table) rest

/-- `Solver::computed_clues`: the puzzle clue minus the solution-derived clue,
per segment key. -/
def computed_clues (s : Solver) : Option (List (ClueKey × Clue)) := do
  let solution_clues ← s.solution.clues
  updateClues s.puzzle.clues solution_clues

/-- `Solver::computed_hints`: AND-combine, per position, the hints of every
segment through it.  The `.unwrap()` on `hexagon.segment` is the `Option`. -/
def computed_hints (s : Solver) : Option (List (Position × Hint)) := do
  let ccs ← computed_clues s
  ccs.foldlM
    (fun hints kc => do
      let clue_hint := kc.2.hint
      let seg ← s.puzzle.board.hexagon.segment kc.1.2 kc.1.1
      some
        (seg.positions.foldl
          (fun hints p =>
            ainsert p (((alookup p hints).getD Hint.any).and clue_hint) hints)
          hints))
    []

/-- One iteration of the `solve_hints` loop: commit the position when its
hint resolves to a single color and it is not yet in the (current) solution. -/
def solveHintsStep (acc : Board × Bool) (ph : Position × Hint) : Board × Bool :=
  match ph.2.solution with
  | some cell =>
    if (alookup ph.1 acc.1.cells).isSome then acc
    else (acc.1.insert ph.1 cell, true)
  | none => acc

/-- `Solver::solve_hints`: commit every not-yet-placed position whose computed
hint resolves to a single color; report whether any commitment occurred. -/
def solve_hints (s : Solver) : Option (Solver × Bool) := do
  let hints ← computed_hints s
  let r := hints.foldl solveHintsStep (s.solution, false)
  some ({ s with solution := r.1 }, r.2)

/-- The inner accumulation of `Solver::solve_clues` for one segment key: sum
the hint-clues of the unsolved positions, then, for each color whose possible
count equals the remaining count, mark every unsolved position that could be
that color.  The `hints.get(&position).unwrap()`s are the `Option`. -/
def solveCluesStep (s : Solver) (hints : List (Position × Hint))
    (acc : List (Position × Cell) × Bool) (kc : ClueKey × Clue) :
    Option (List (Position × Cell) × Bool) := do
  let seg ← s.puzzle.board.hexagon.segment kc.1.2 kc.1.1
  let hinted_clue ←
    seg.positions.foldlM
      (fun (hc : Clue) p =>
        if (alookup p s.solution.cells).isSome then some hc
        else (alookup p hints).map (fun h => hc.add h.clue))
      Clue.zero
  Cell.all.foldlM
    (fun (acc : List (Position × Cell) × Bool) cell =>
      if hinted_clue.cell cell = kc.2.cell cell then
        seg.positions.foldlM
          (fun (acc : List (Position × Cell) × Bool) p =>
            if (alookup p s.solution.cells).isSome then some acc
            else
              (alookup p hints).map
                (fun h => if h.cell cell then (ainsert p cell acc.1, true) else acc))
          acc
      else some acc)
    acc

/-- The final loop of `solve_clues`: insert every collected commitment into a
board (`for (position, cell) in new { self.solution.insert(...) }`). -/
def applyNew (news : List (Position × Cell)) (b : Board) : Board :=
  news.foldl (fun bb pc => bb.insert pc.1 pc.2) b

/-- `Solver::solve_clues`: collect the commitments of every segment into a
fresh map, then apply them all to the solution; report whether any commitment
occurred. -/
def solve_clues (s : Solver) : Option (Solver × Bool) := do
  let hints ← computed_hints s
  let ccs ← computed_clues s
  let r ← ccs.foldlM (solveCluesStep s hints) ([], false)
  some ({ s with solution := applyNew r.1 s.solution }, r.2)

/-- The `while self.solve_hints() || self.solve_clues() {}` loop of
`Solver::solve`, with fuel: each iteration runs `solve_hints`, then (when it
made no progress) `solve_clues`, and exits when neither did. -/
def solveLoop : Solver → Nat → Option Solver
  | _, 0 => none
  | s, fuel + 1 => do
    let rh ← solve_hints s
    if rh.2 then solveLoop rh.1 fuel
    else do
      let rc ← solve_clues rh.1
      if rc.2 then solveLoop rc.1 fuel else some rc.1

/-- `Solver::solve`: iterate to fixpoint, then report whether the solution
board is fully filled. -/
def solve (s : Solver) (fuel : Nat) : Option (Solver × Bool) := do
  let s2 ← solveLoop s fuel
  let solved ← s2.solution.is_solved
  some (s2, solved)

end Solver

namespace Refiner

/-- `Refiner::lowest_computed_clue`: among the non-empty computed clues, a
(key, clue) entry whose total count is **lowest** (`min_by_key`). -/
def lowest_computed_clue (computed_clues : List (ClueKey × Clue)) :
    Option (ClueKey × Clue) :=
  minByKey (fun kc => kc.2.count) (computed_clues.filter (fun kc => !kc.2.is_empty))

/-- `Refiner::find_segment_unsolved_cell_position`: the first position on the
solution puzzle's chord that holds the wanted color and is not yet in the
solver's solution. -/
def find_segment_unsolved_cell_position (solution : Puzzle) (s : Solver)
    (direction : Direction) (distance : Int) (cell : Cell) : Option Position :=
  (solution.board.segment distance direction).bind
    (fun seg =>
      (seg.find?
          (fun pc =>
            (alookup pc.1 s.solution.cells).isNone && pc.2 == some cell)).map
        Prod.fst)

/-- `Refiner::solve_cell` — one reveal of the refine loop: pick the lowest
non-empty computed clue, its most frequent color, and an unrevealed position
of that color on the corresponding chord of the true solution; insert it into
both the solver's puzzle board and its solution.  Every `.unwrap()` is an
`Option` bind. -/
def solve_cell (solution : Puzzle) (s : Solver) : Option Solver := do
  let ccs ← Solver.computed_clues s
  let kc ← lowest_computed_clue ccs
  let max_cell ← kc.2.max_cell
  let position ← find_segment_unsolved_cell_position solution s kc.1.1 kc.1.2 max_cell
  some
    ⟨{ s.puzzle with board := s.puzzle.board.insert position max_cell },
      s.solution.insert position max_cell⟩

/-- The `while !solver.solve()` reveal loop of `Refiner::refine`, with fuel:
solve; while unsolved, reveal one cell via `solve_cell` and repeat. -/
def refineLoop (solution : Puzzle) : Solver → Nat → Nat → Option Solver
  | _, _, 0 => none
  | s, solveFuel, fuel + 1 => do
    let r ← Solver.solve s solveFuel
    if r.2 then some r.1
    else do
      let s2 ← solve_cell solution r.1
      refineLoop solution s2 solveFuel fuel

end Refiner

/-! ## Auxiliary definitions used only by the statements and proofs below -/

/-- The enumeration order of the colors (`Red < Green < Blue`), used to state
tie-breaking. -/
def cellIdx : Cell → Nat
  | Cell.Red => 0
  | Cell.Green => 1
  | Cell.Blue => 2

/-- The boundary invariant of a board: every key of the cell map lies within
the hexagon. -/
def BoardInv (b : Board) : Prop :=
  ∀ kv ∈ b.cells, b.hexagon.contains kv.1 = true

/-- Monotone growth between two cell maps: every binding of the first is a
binding of the second (nothing removed, nothing changed). -/
def Preserves (b1 b2 : Board) : Prop :=
  ∀ p c, alookup p b1.cells = some c → alookup p b2.cells = some c

/-- The set of points denoted by a line: all positions reachable from the
origin by an integer number of direction steps. -/
def Line.points (l : Line) : Set Position :=
  { p | ∃ d : Int, l.position d = p }

/-- The corner-direction units of the six ring sides, in traversal order
(sides start at the `XY`, `XZ`, `YZ`, `YX`, `ZX`, `ZY` corners). -/
def sideC : Nat → Position
  | 0 => ⟨1, -1⟩
  | 1 => ⟨1, 0⟩
  | 2 => ⟨0, 1⟩
  | 3 => ⟨-1, 1⟩
  | 4 => ⟨-1, 0⟩
  | _ => ⟨0, -1⟩

/-- The travel-direction units of the six ring sides, in traversal order
(`YZ`, `YX`, `ZX`, `ZY`, `XY`, `XZ`). -/
def sideU : Nat → Position
  | 0 => ⟨0, 1⟩
  | 1 => ⟨-1, 1⟩
  | 2 => ⟨-1, 0⟩
  | 3 => ⟨0, -1⟩
  | 4 => ⟨1, -1⟩
  | _ => ⟨1, 0⟩

/-- The travel directions of the six ring sides, in traversal order. -/
def sideDir : Nat → Direction
  | 0 => Direction.YZ
  | 1 => Direction.YX
  | 2 => Direction.ZX
  | 3 => Direction.ZY
  | 4 => Direction.XY
  | _ => Direction.XZ

/-- The positions of ring side `j`: `radius` points from the side's corner in
the side's travel direction. -/
def sideList (o : Position) (k : Int) (j : Nat) : List Position :=
  (List.range k.toNat).map
    (fun i : Nat => (o.add ((sideC j).mul k)).add ((sideU j).mul (i : Int)))

/-- The segment traversed as ring side `j`. -/
def sideSeg (o : Position) (k : Int) (j : Nat) : Segment :=
  ⟨⟨o.add ((sideC j).mul k), sideDir j⟩, k⟩

/-- Closed form of a ring traversal: six sides of `radius` positions each,
side `j` running from corner `j` in direction `sideU j`. -/
def ringClosed (o : Position) (k : Int) : List Position :=
  sideList o k 0 ++ (sideList o k 1 ++ (sideList o k 2 ++
    (sideList o k 3 ++ (sideList o k 4 ++ sideList o k 5))))

/-- The canonical segment-key list of a radius: every normalized direction
paired with every offset in `−radius..=radius`. -/
def keyList (radius : Int) : List ClueKey :=
  Direction.normalizedL.flatMap (fun dir => (intRange (-radius) radius).map (fun d => (dir, d)))

/-! ### Concrete example data (used by counterexamples and witnesses) -/

/-- A fully colored radius-1 board: center `Red`, ring alternating
`Green`/`Red`. -/
def exCells : List (Position × Cell) :=
  [(⟨0, 0⟩, Cell.Red), (⟨1, -1⟩, Cell.Green), (⟨1, 0⟩, Cell.Red),
    (⟨0, 1⟩, Cell.Green), (⟨-1, 1⟩, Cell.Red), (⟨-1, 0⟩, Cell.Green),
    (⟨0, -1⟩, Cell.Red)]

/-- The board holding `exCells` (the value of `Board::from_cells(1, exCells)`). -/
def exSolutionBoard : Board := ⟨⟨Position.zero, 1⟩, exCells⟩

/-- The clue table derived from `exSolutionBoard` (the value computed by
`Puzzle::with_clues`). -/
def exClueTable : List (ClueKey × Clue) :=
  [((Direction.XY, -1), ⟨1, 1, 0⟩), ((Direction.XY, 0), ⟨2, 1, 0⟩),
    ((Direction.XY, 1), ⟨1, 1, 0⟩), ((Direction.YZ, -1), ⟨1, 1, 0⟩),
    ((Direction.YZ, 0), ⟨2, 1, 0⟩), ((Direction.YZ, 1), ⟨1, 1, 0⟩),
    ((Direction.ZX, -1), ⟨1, 1, 0⟩), ((Direction.ZX, 0), ⟨2, 1, 0⟩),
    ((Direction.ZX, 1), ⟨1, 1, 0⟩)]

/-- The solution puzzle `Puzzle::with_clues(exSolutionBoard)`. -/
def exSolutionPuzzle : Puzzle := ⟨exSolutionBoard, exClueTable⟩

/-- The cleared puzzle (`exSolutionPuzzle.clear()`): empty board, same clue
table. -/
def exPuzzle : Puzzle := ⟨⟨⟨Position.zero, 1⟩, []⟩, exClueTable⟩

/-- The solver over the cleared puzzle (`Solver::new(exPuzzle)`). -/
def exSolver : Solver := ⟨exPuzzle, ⟨⟨Position.zero, 1⟩, []⟩⟩

/-- A solver mid-run: same puzzle, center already placed in the solution. -/
def exSolverMid : Solver := ⟨exPuzzle, ⟨⟨Position.zero, 1⟩, [(⟨0, 0⟩, Cell.Red)]⟩⟩

/-! ## C1: the general `Puzzle::new` constructor discards the supplied clues -/

/-- C1: for every board and every clue iterator, the puzzle built by
`Puzzle::new(board, clue_iterator)` stores an **empty** clue table — the table
built from the iterator is discarded. -/
theorem puzzle_new_discards_clues (board : Board)
    (clue_iterator : List (ClueKey × Clue)) :
    (Puzzle.new board clue_iterator).clues = [] := rfl

/-! ## C6: `Puzzle::clear` empties the board, keeping clues and boundary -/

/-- C6: for every puzzle whose board is centered at the zero position with a
positive radius — as every board built by this program is — `clear()` succeeds
and yields a puzzle with the same clue table, an empty cell map, and the same
hexagon boundary (origin and radius). -/
theorem clear_preserves_clues_and_boundary (p : Puzzle)
    (horigin : p.board.hexagon.origin = Position.zero)
    (hradius : 0 < p.board.hexagon.radius) :
    ∃ q, p.clear = some q ∧ q.clues = p.clues ∧ q.board.cells = [] ∧
      q.board.hexagon = p.board.hexagon := by
  refine ⟨⟨⟨p.board.hexagon, []⟩, p.clues⟩, ?_, rfl, rfl, rfl⟩
  unfold Puzzle.clear Board.new Hexagon.zeroH Hexagon.new
  rw [if_pos hradius]
  obtain ⟨⟨⟨o, r⟩, cells⟩, clues⟩ := p
  simp only at horigin hradius ⊢
  subst horigin
  rfl

/-- Witness for C6 at a concrete puzzle. -/
theorem clear_preserves_clues_and_boundary_witness :
    ∃ q, Puzzle.clear exSolutionPuzzle = some q ∧ q.clues = exSolutionPuzzle.clues ∧
      q.board.cells = [] ∧ q.board.hexagon = exSolutionPuzzle.board.hexagon :=
  clear_preserves_clues_and_boundary exSolutionPuzzle (by decide) (by decide)

/-! ## C5: `Clue` subtraction and `u32` underflow -/

/-- C5 counterexample: `Clue` subtraction is **not** total in the claimed
sense.  At `a = (0,0,0)`, `b = (1,0,0)` the checked (debug-profile)
subtraction panics (`none`), and the wrapping (release-profile) subtraction
yields `2^32 − 1`, not a "negative intermediate". -/
theorem clue_sub_underflow :
    Clue.subChecked ⟨0, 0, 0⟩ ⟨1, 0, 0⟩ = none ∧
      Clue.sub ⟨0, 0, 0⟩ ⟨1, 0, 0⟩ = ⟨4294967295, 0, 0⟩ := by
  constructor
  · decide
  · rfl

/-- C5 amended: when `b`'s counts are pointwise at most `a`'s (and `a` is a
representable `u32` clue), the subtraction is defined under both profiles and
the result has per-color counts `a.cell(c) − b.cell(c)`. -/
theorem clue_sub_defined_when_pointwise_le (a b : Clue)
    (har : a.red < U32) (hag : a.green < U32) (hab : a.blue < U32)
    (hle : b.red ≤ a.red ∧ b.green ≤ a.green ∧ b.blue ≤ a.blue) :
    a.subChecked b = some (a.sub b) ∧
      ∀ x, (a.sub b).cell x = a.cell x - b.cell x := by
  obtain ⟨hr, hg, hb⟩ := hle
  have hsub : a.sub b = ⟨a.red - b.red, a.green - b.green, a.blue - b.blue⟩ := by
    unfold Clue.sub U32 at *
    refine congrArg₂ (fun u v => Clue.mk u v _) ?_ ?_ |>.trans (congrArg _ ?_) <;> omega
  refine ⟨?_, ?_⟩
  · rw [hsub]
    unfold Clue.subChecked
    rw [if_pos ⟨hr, hg, hb⟩]
  · intro x
    rw [hsub]
    cases x <;> rfl

/-- Witness for C5 at concrete clues. -/
theorem clue_sub_defined_when_pointwise_le_witness :
    Clue.subChecked ⟨3, 2, 1⟩ ⟨1, 2, 0⟩ = some (Clue.sub ⟨3, 2, 1⟩ ⟨1, 2, 0⟩) ∧
      ∀ x, (Clue.sub ⟨3, 2, 1⟩ ⟨1, 2, 0⟩).cell x =
        (Clue.mk 3 2 1).cell x - (Clue.mk 1 2 0).cell x :=
  clue_sub_defined_when_pointwise_le ⟨3, 2, 1⟩ ⟨1, 2, 0⟩ (by decide) (by decide)
    (by decide) (by decide)

/-! ## C4: `min_cell` / `max_cell` extremes and tie-breaking -/

/-- C4 counterexample: on the clue `(1, 1, 0)` the colors `Red` and `Green`
tie for the maximum, and `max_cell` returns `Green` — the **last** tied color
in enumeration order, not the first as claimed. -/
theorem clue_max_cell_tie_not_first :
    Clue.max_cell ⟨1, 1, 0⟩ = some Cell.Green ∧
      Clue.max_cell ⟨1, 1, 0⟩ ≠ some Cell.Red := by decide

/-- C4 amended: `min_cell`/`max_cell` return `none` exactly when all three
counts are zero; otherwise `min_cell` returns a color of minimal non-zero
count, breaking ties towards the **first** color in enumeration order, and
`max_cell` returns a color of maximal (non-zero) count, breaking ties towards
the **last** color in enumeration order. -/
theorem clue_min_max_cell_spec (c : Clue) :
    (c.min_cell = none ↔ c.red = 0 ∧ c.green = 0 ∧ c.blue = 0) ∧
    (c.max_cell = none ↔ c.red = 0 ∧ c.green = 0 ∧ c.blue = 0) ∧
    (∀ m, c.min_cell = some m →
      0 < c.cell m ∧ (∀ x, 0 < c.cell x → c.cell m ≤ c.cell x) ∧
        ∀ x, 0 < c.cell x → c.cell x = c.cell m → cellIdx m ≤ cellIdx x) ∧
    (∀ m, c.max_cell = some m →
      0 < c.cell m ∧ (∀ x, 0 < c.cell x → c.cell x ≤ c.cell m) ∧
        ∀ x, 0 < c.cell x → c.cell x = c.cell m → cellIdx x ≤ cellIdx m) := by
  obtain ⟨r, g, b⟩ := c
  by_cases hr : 0 < r <;> by_cases hg : 0 < g <;> by_cases hb : 0 < b <;>
    simp only [Clue.min_cell, Clue.max_cell, Clue.cell, Cell.all, minByKey, maxByKey,
      List.filter, hr, hg, hb, List.foldl, decide_eq_true_eq, decide_True, decide_False,
      if_true, if_false, List.foldl_nil, List.foldl_cons] <;>
  (repeat (first | split_ifs | dsimp only [])) <;>
  all_goals
    (refine ⟨by (try split_ifs) <;> simp <;> omega,
        by (try split_ifs) <;> simp <;> omega, ?_, ?_⟩ <;>
      rintro m hm <;>
      first
        | exact Option.noConfusion hm
        | (rw [Option.some.injEq] at hm; subst hm;
            refine ⟨by simp only [Clue.cell]; omega, ?_, ?_⟩ <;>
              intro x hx1 <;> (try intro hx2) <;> cases x <;>
              simp only [Clue.cell, cellIdx] at * <;> omega))

/-- Witness for C4 at a concrete clue: on `(1, 2, 0)` the minimum non-zero
count picks `Red`. -/
theorem clue_min_max_cell_spec_witness :
    0 < (Clue.mk 1 2 0).cell Cell.Red ∧
      (∀ x, 0 < (Clue.mk 1 2 0).cell x →
        (Clue.mk 1 2 0).cell Cell.Red ≤ (Clue.mk 1 2 0).cell x) ∧
      ∀ x, 0 < (Clue.mk 1 2 0).cell x →
        (Clue.mk 1 2 0).cell x = (Clue.mk 1 2 0).cell Cell.Red →
          cellIdx Cell.Red ≤ cellIdx x :=
  (clue_min_max_cell_spec ⟨1, 2, 0⟩).2.2.1 Cell.Red (by decide)


/-! ## C8: line equivalence is captured by normalization -/

lemma position_zero_eq (l : Line) : l.position 0 = l.origin := by
  obtain ⟨⟨x, y⟩, d⟩ := l
  simp [Line.position, Position.add, Position.mul]

lemma points_shift (o : Position) (d : Direction) (k : Int) :
    Line.points ⟨o.add (d.unit.mul k), d⟩ = Line.points ⟨o, d⟩ := by
  ext p
  simp only [Line.points, Line.position, Position.add, Position.mul, Set.mem_setOf_eq]
  constructor
  · rintro ⟨t, h⟩
    exact ⟨k + t, by rw [← h]; simp only [Position.mk.injEq]; constructor <;> ring⟩
  · rintro ⟨t, h⟩
    exact ⟨t - k, by rw [← h]; simp only [Position.mk.injEq]; constructor <;> ring⟩

lemma points_opposite (o : Position) (d : Direction) :
    Line.points ⟨o, d.opposite⟩ = Line.points ⟨o, d⟩ := by
  have hu : d.opposite.unit = d.unit.neg := by cases d <;> rfl
  ext p
  simp only [Line.points, Line.position, hu, Position.add, Position.mul, Position.neg,
    Set.mem_setOf_eq]
  constructor
  · rintro ⟨t, h⟩
    exact ⟨-t, by rw [← h]; simp only [Position.mk.injEq]; constructor <;> ring⟩
  · rintro ⟨t, h⟩
    exact ⟨-t, by rw [← h]; simp only [Position.mk.injEq]; constructor <;> ring⟩

lemma sub_mul_as_add (o u : Position) (k : Int) :
    o.sub (u.mul k) = o.add (u.mul (-k)) := by
  simp only [Position.sub, Position.add, Position.mul, Position.mk.injEq]
  constructor <;> ring

lemma points_normalize (l : Line) : l.normalize.points = l.points := by
  obtain ⟨o, d⟩ := l
  show Line.points ⟨Position.sub o _, Direction.normalize d⟩ = _
  rw [sub_mul_as_add, points_shift]
  cases d
  case XY => rfl
  case YZ => rfl
  case ZX => rfl
  case YX => exact points_opposite o Direction.YX
  case ZY => exact points_opposite o Direction.ZY
  case XZ => exact points_opposite o Direction.XZ

lemma normalize_direction_fixed (l : Line) :
    l.normalize.direction.normalize = l.normalize.direction := by
  obtain ⟨o, d⟩ := l
  cases d <;> rfl

lemma normalize_origin_axis (l : Line) :
    l.normalize.origin.axis l.normalize.direction.positive_axis = 0 := by
  obtain ⟨⟨x, y⟩, d⟩ := l
  cases d <;>
    simp [Line.normalize, Direction.normalize, Direction.opposite, Direction.positive_axis,
      Direction.axes, Position.axis, Position.sub, Position.mul, Direction.unit,
      Position.z]

lemma points_eq_norm (l1 l2 : Line)
    (h1d : l1.direction.normalize = l1.direction)
    (h2d : l2.direction.normalize = l2.direction)
    (h1o : l1.origin.axis l1.direction.positive_axis = 0)
    (h2o : l2.origin.axis l2.direction.positive_axis = 0)
    (hpts : l1.points = l2.points) : l1 = l2 := by
  obtain ⟨a, ha⟩ : ∃ t, l2.position t = l1.origin := by
    have : l1.origin ∈ l1.points := ⟨0, position_zero_eq l1⟩
    rw [hpts] at this
    exact this
  obtain ⟨bb, hbb⟩ : ∃ t, l2.position t = l1.position 1 := by
    have : l1.position 1 ∈ l1.points := ⟨1, rfl⟩
    rw [hpts] at this
    exact this
  obtain ⟨⟨x1, y1⟩, d1⟩ := l1
  obtain ⟨⟨x2, y2⟩, d2⟩ := l2
  cases d1 <;> cases d2 <;>
    simp [Direction.normalize, Direction.opposite] at h1d h2d <;>
    simp only [Line.position, Position.add, Position.mul, Position.axis, Position.z,
      Direction.unit, Direction.positive_axis, Direction.axes,
      Position.mk.injEq] at ha hbb h1o h2o <;>
    simp only [Line.mk.injEq, Position.mk.injEq, and_true, and_false] <;>
    omega

/-- C8: two lines denote the same set of positions precisely when their
`normalize()` forms are equal (same origin and direction after
normalization). -/
theorem line_points_eq_iff_normalize_eq (l1 l2 : Line) :
    l1.points = l2.points ↔ l1.normalize = l2.normalize := by
  constructor
  · intro h
    exact points_eq_norm l1.normalize l2.normalize (normalize_direction_fixed l1)
      (normalize_direction_fixed l2) (normalize_origin_axis l1) (normalize_origin_axis l2)
      (by rw [points_normalize, points_normalize, h])
  · intro h
    rw [← points_normalize l1, ← points_normalize l2, h]


/-! ## C9: the solver only ever adds entries to its solution board -/

lemma alookup_ainsert {κ ν : Type} [DecidableEq κ] (k k2 : κ) (v : ν) (l : List (κ × ν)) :
    alookup k (ainsert k2 v l) = if k2 = k then some v else alookup k l := by
  induction l with
  | nil => simp [ainsert, alookup]
  | cons hd t ih =>
    obtain ⟨k1, v1⟩ := hd
    simp only [ainsert, alookup]
    split_ifs <;> simp_all [alookup]

lemma mem_ainsert {κ ν : Type} [DecidableEq κ] (kv : κ × ν) (k : κ) (v : ν)
    (l : List (κ × ν)) (h : kv ∈ ainsert k v l) : kv = (k, v) ∨ kv ∈ l := by
  induction l with
  | nil => simpa [ainsert] using h
  | cons hd t ih =>
    obtain ⟨k1, v1⟩ := hd
    by_cases h1 : k1 = k
    · simp only [ainsert, if_pos h1] at h
      rcases List.mem_cons.mp h with h2 | h2
      · exact Or.inl h2
      · exact Or.inr (List.mem_cons_of_mem _ h2)
    · simp only [ainsert, if_neg h1] at h
      rcases List.mem_cons.mp h with h2 | h2
      · rw [h2]
        exact Or.inr (List.mem_cons_self _ _)
      · rcases ih h2 with h3 | h3
        · exact Or.inl h3
        · exact Or.inr (List.mem_cons_of_mem _ h3)

lemma preserves_trans {b1 b2 b3 : Board} (h1 : Preserves b1 b2) (h2 : Preserves b2 b3) :
    Preserves b1 b3 := fun p c h => h2 p c (h1 p c h)

lemma preserves_insert_fresh {b0 b : Board} {q : Position} (v : Cell)
    (hq : alookup q b0.cells = none) (h : Preserves b0 b) :
    Preserves b0 (b.insert q v) := by
  intro p c hp
  have hqp : q ≠ p := fun he => by rw [he, hp] at hq; exact Option.noConfusion hq
  show alookup p (ainsert q v b.cells) = some c
  rw [alookup_ainsert, if_neg hqp]
  exact h p c hp

lemma preserves_insert_cur {b0 b : Board} {q : Position} (v : Cell)
    (hq : alookup q b.cells = none) (h : Preserves b0 b) :
    Preserves b0 (b.insert q v) := by
  intro p c hp
  have hb : alookup p b.cells = some c := h p c hp
  have hqp : q ≠ p := fun he => by rw [he, hb] at hq; exact Option.noConfusion hq
  show alookup p (ainsert q v b.cells) = some c
  rw [alookup_ainsert, if_neg hqp]
  exact hb

lemma foldlM_option_inv {α β : Type} (P : β → Prop) (f : β → α → Option β)
    (hf : ∀ b a b2, P b → f b a = some b2 → P b2) :
    ∀ (l : List α) (b b2 : β), P b → l.foldlM f b = some b2 → P b2 := by
  intro l
  induction l with
  | nil =>
    intro b b2 hb h
    simp only [List.foldlM_nil] at h
    cases h
    exact hb
  | cons a t ih =>
    intro b b2 hb h
    simp only [List.foldlM_cons] at h
    cases hfa : f b a with
    | none => rw [hfa] at h; exact Option.noConfusion h
    | some b1 =>
      rw [hfa] at h
      exact ih b1 b2 (hf b a b1 hb hfa) h

lemma solveHintsStep_preserves (b0 : Board) (acc : Board × Bool) (ph : Position × Hint)
    (h : Preserves b0 acc.1) : Preserves b0 (Solver.solveHintsStep acc ph).1 := by
  unfold Solver.solveHintsStep
  cases ph.2.solution with
  | none => exact h
  | some cell =>
    dsimp only
    cases hl : alookup ph.1 acc.1.cells with
    | some c0 => simp only [hl, Option.isSome_some, if_true]; exact h
    | none =>
      simp only [hl, Option.isSome_none, Bool.false_eq_true, if_false]
      exact preserves_insert_cur cell hl h

lemma solve_hints_fold (b0 : Board) (hints : List (Position × Hint)) :
    ∀ acc : Board × Bool, Preserves b0 acc.1 →
      Preserves b0 (hints.foldl Solver.solveHintsStep acc).1 := by
  induction hints with
  | nil => intro acc h; exact h
  | cons ph t ih =>
    intro acc h
    rw [List.foldl_cons]
    exact ih _ (solveHintsStep_preserves b0 acc ph h)

lemma solve_hints_preserves (s s2 : Solver) (t : Bool)
    (h : Solver.solve_hints s = some (s2, t)) : Preserves s.solution s2.solution := by
  unfold Solver.solve_hints at h
  cases hch : Solver.computed_hints s with
  | none => rw [hch] at h; exact Option.noConfusion h
  | some hints =>
    rw [hch] at h
    simp only [Option.bind_eq_bind', Option.some_bind, Option.bind_some] at h
    cases h
    exact solve_hints_fold s.solution hints (s.solution, false) (fun p c hp => hp)

lemma solveCluesStep_fresh (s : Solver) (hints : List (Position × Hint)) (kc : ClueKey × Clue)
    (acc acc2 : List (Position × Cell) × Bool)
    (hP : ∀ qc ∈ acc.1, alookup qc.1 s.solution.cells = none)
    (h : Solver.solveCluesStep s hints acc kc = some acc2) :
    ∀ qc ∈ acc2.1, alookup qc.1 s.solution.cells = none := by
  unfold Solver.solveCluesStep at h
  cases hseg : s.puzzle.board.hexagon.segment kc.1.2 kc.1.1 with
  | none => rw [hseg] at h; exact Option.noConfusion h
  | some seg =>
    rw [hseg] at h
    simp only [Option.bind_eq_bind', Option.some_bind, Option.bind_some] at h
    cases hhc : seg.positions.foldlM
        (fun (hc : Clue) p =>
          if (alookup p s.solution.cells).isSome then some hc
          else (alookup p hints).map (fun h => hc.add h.clue))
        Clue.zero with
    | none => rw [hhc] at h; exact Option.noConfusion h
    | some hinted_clue =>
      rw [hhc] at h
      simp only [Option.bind_eq_bind', Option.some_bind, Option.bind_some] at h
      refine foldlM_option_inv
        (fun b => ∀ qc ∈ b.1, alookup qc.1 s.solution.cells = none) _ ?_ _ acc acc2 hP h
      intro b a b2 hPb hab
      by_cases hcond : hinted_clue.cell a = kc.2.cell a
      · rw [if_pos hcond] at hab
        refine foldlM_option_inv
          (fun b => ∀ qc ∈ b.1, alookup qc.1 s.solution.cells = none) _ ?_ _ b b2 hPb hab
        intro b1 p b2' hPb1 hstep
        cases hl : alookup p s.solution.cells with
        | some c0 =>
          rw [hl] at hstep
          simp only [Option.isSome_some, if_true] at hstep
          cases hstep
          exact hPb1
        | none =>
          rw [hl] at hstep
          simp only [Option.isSome_none, Bool.false_eq_true, if_false] at hstep
          cases hh : alookup p hints with
          | none => rw [hh] at hstep; exact Option.noConfusion hstep
          | some hint0 =>
            rw [hh] at hstep
            simp only [Option.map_some, Option.map_some'] at hstep
            cases hstep
            by_cases hc2 : hint0.cell a = true
            · rw [if_pos hc2]
              intro qc hqc
              rcases mem_ainsert qc p a b1.1 hqc with hqe | hqm
              · rw [hqe]
                exact hl
              · exact hPb1 qc hqm
            · rw [if_neg hc2]
              exact hPb1
      · rw [if_neg hcond] at hab
        cases hab
        exact hPb

lemma applyNew_preserves (b0 : Board) (news : List (Position × Cell))
    (hfresh : ∀ qc ∈ news, alookup qc.1 b0.cells = none) :
    ∀ b : Board, Preserves b0 b → Preserves b0 (Solver.applyNew news b) := by
  induction news with
  | nil => intro b h; exact h
  | cons qc t ih =>
    intro b h
    unfold Solver.applyNew
    rw [List.foldl_cons]
    exact ih (fun x hx => hfresh x (List.mem_cons_of_mem _ hx)) _
      (preserves_insert_fresh qc.2 (hfresh qc (List.mem_cons_self _ _)) h)

lemma solve_clues_preserves (s s2 : Solver) (t : Bool)
    (h : Solver.solve_clues s = some (s2, t)) : Preserves s.solution s2.solution := by
  unfold Solver.solve_clues at h
  cases hch : Solver.computed_hints s with
  | none => rw [hch] at h; exact Option.noConfusion h
  | some hints =>
    rw [hch] at h
    simp only [Option.bind_eq_bind', Option.some_bind, Option.bind_some] at h
    cases hcc : Solver.computed_clues s with
    | none => rw [hcc] at h; exact Option.noConfusion h
    | some ccs =>
      rw [hcc] at h
      simp only [Option.bind_eq_bind', Option.some_bind, Option.bind_some] at h
      cases hr : ccs.foldlM (Solver.solveCluesStep s hints) ([], false) with
      | none => rw [hr] at h; exact Option.noConfusion h
      | some r =>
        rw [hr] at h
        simp only [Option.bind_eq_bind', Option.some_bind, Option.bind_some] at h
        cases h
        have hfresh : ∀ qc ∈ r.1, alookup qc.1 s.solution.cells = none := by
          refine foldlM_option_inv
            (fun b => ∀ qc ∈ b.1, alookup qc.1 s.solution.cells = none)
            (Solver.solveCluesStep s hints) ?_ ccs ([], false) r (by simp) hr
          intro b a b2 hPb hab
          exact solveCluesStep_fresh s hints a b b2 hPb hab
        exact applyNew_preserves s.solution r.1 hfresh s.solution (fun p c hp => hp)

lemma solveLoop_preserves : ∀ (fuel : Nat) (s s2 : Solver),
    Solver.solveLoop s fuel = some s2 → Preserves s.solution s2.solution := by
  intro fuel
  induction fuel with
  | zero => intro s s2 h; exact Option.noConfusion h
  | succ f ih =>
    intro s s2 h
    unfold Solver.solveLoop at h
    cases hh : Solver.solve_hints s with
    | none => rw [hh] at h; exact Option.noConfusion h
    | some rh =>
      rw [hh] at h
      simp only [Option.bind_eq_bind', Option.some_bind, Option.bind_some] at h
      by_cases hb : rh.2 = true
      · rw [if_pos hb] at h
        exact preserves_trans (solve_hints_preserves s rh.1 rh.2 (by rw [hh])) (ih rh.1 s2 h)
      · rw [if_neg hb] at h
        cases hc : Solver.solve_clues rh.1 with
        | none => rw [hc] at h; exact Option.noConfusion h
        | some rc =>
          rw [hc] at h
          simp only [Option.bind_eq_bind', Option.some_bind, Option.bind_some] at h
          have hp1 : Preserves s.solution rc.1.solution :=
            preserves_trans (solve_hints_preserves s rh.1 rh.2 (by rw [hh]))
              (solve_clues_preserves rh.1 rc.1 rc.2 (by rw [hc]))
          by_cases hb2 : rc.2 = true
          · rw [if_pos hb2] at h
            exact preserves_trans hp1 (ih rc.1 s2 h)
          · rw [if_neg hb2] at h
            cases h
            exact hp1

lemma solve_preserves (s s2 : Solver) (t : Bool) (fuel : Nat)
    (h : Solver.solve s fuel = some (s2, t)) : Preserves s.solution s2.solution := by
  unfold Solver.solve at h
  cases hl : Solver.solveLoop s fuel with
  | none => rw [hl] at h; exact Option.noConfusion h
  | some s3 =>
    rw [hl] at h
    simp only [Option.bind_eq_bind', Option.some_bind, Option.bind_some] at h
    cases hs : s3.solution.is_solved with
    | none => rw [hs] at h; exact Option.noConfusion h
    | some solved =>
      rw [hs] at h
      simp only [Option.bind_eq_bind', Option.some_bind, Option.bind_some] at h
      cases h
      exact solveLoop_preserves fuel s _ hl

/-- C9: each of `solve_hints`, `solve_clues` and `solve` only adds entries to
the solution board: every (position, cell) binding present before a
(successful) call is present, with the same cell, after it; no entry is ever
removed or changed. -/
theorem solver_only_adds_entries (s : Solver) (fuel : Nat) :
    (∀ s2 t, Solver.solve_hints s = some (s2, t) →
      ∀ p c, alookup p s.solution.cells = some c → alookup p s2.solution.cells = some c) ∧
    (∀ s2 t, Solver.solve_clues s = some (s2, t) →
      ∀ p c, alookup p s.solution.cells = some c → alookup p s2.solution.cells = some c) ∧
    (∀ s2 t, Solver.solve s fuel = some (s2, t) →
      ∀ p c, alookup p s.solution.cells = some c → alookup p s2.solution.cells = some c) :=
  ⟨fun s2 t h => solve_hints_preserves s s2 t h,
    fun s2 t h => solve_clues_preserves s s2 t h,
    fun s2 t h => solve_preserves s s2 t fuel h⟩

/-- Witness for C9: a concrete `solve_hints` run whose pre-placed center cell
survives. -/
theorem solver_only_adds_entries_witness :
    alookup (⟨0, 0⟩ : Position) exSolverMid.solution.cells = some Cell.Red :=
  (solver_only_adds_entries exSolverMid 1).1 exSolverMid false (by rfl)
    ⟨0, 0⟩ Cell.Red (by rfl)


/-! ## C3: which segment and color the Refiner reveal loop picks -/

lemma minFold_spec {α : Type} (f : α → Nat) :
    ∀ (t : List α) (x : α),
      (t.foldl (fun a y => if f y < f a then y else a) x = x ∨
        t.foldl (fun a y => if f y < f a then y else a) x ∈ t) ∧
      f (t.foldl (fun a y => if f y < f a then y else a) x) ≤ f x ∧
      ∀ y ∈ t, f (t.foldl (fun a y => if f y < f a then y else a) x) ≤ f y := by
  intro t
  induction t with
  | nil => intro x; simp
  | cons y t2 ih =>
    intro x
    rw [List.foldl_cons]
    by_cases hc : f y < f x
    · rw [if_pos hc]
      obtain ⟨hm, hle, hall⟩ := ih y
      refine ⟨?_, le_trans hle (le_of_lt hc), ?_⟩
      · rcases hm with hm | hm
        · rw [hm]
          exact Or.inr (List.mem_cons_self _ _)
        · exact Or.inr (List.mem_cons_of_mem _ hm)
      · intro z hz
        rcases List.mem_cons.mp hz with hz | hz
        · subst hz
          exact hle
        · exact hall z hz
    · rw [if_neg hc]
      obtain ⟨hm, hle, hall⟩ := ih x
      refine ⟨?_, hle, ?_⟩
      · rcases hm with hm | hm
        · exact Or.inl hm
        · exact Or.inr (List.mem_cons_of_mem _ hm)
      · intro z hz
        rcases List.mem_cons.mp hz with hz | hz
        · subst hz
          exact le_trans hle (Nat.le_of_not_lt hc)
        · exact hall z hz

lemma maxFold_spec {α : Type} (f : α → Nat) :
    ∀ (t : List α) (x : α),
      (t.foldl (fun a y => if f a ≤ f y then y else a) x = x ∨
        t.foldl (fun a y => if f a ≤ f y then y else a) x ∈ t) ∧
      f x ≤ f (t.foldl (fun a y => if f a ≤ f y then y else a) x) ∧
      ∀ y ∈ t, f y ≤ f (t.foldl (fun a y => if f a ≤ f y then y else a) x) := by
  intro t
  induction t with
  | nil => intro x; simp
  | cons y t2 ih =>
    intro x
    rw [List.foldl_cons]
    by_cases hc : f x ≤ f y
    · rw [if_pos hc]
      obtain ⟨hm, hle, hall⟩ := ih y
      refine ⟨?_, le_trans hc hle, ?_⟩
      · rcases hm with hm | hm
        · rw [hm]
          exact Or.inr (List.mem_cons_self _ _)
        · exact Or.inr (List.mem_cons_of_mem _ hm)
      · intro z hz
        rcases List.mem_cons.mp hz with hz | hz
        · subst hz
          exact hle
        · exact hall z hz
    · rw [if_neg hc]
      obtain ⟨hm, hle, hall⟩ := ih x
      refine ⟨?_, hle, ?_⟩
      · rcases hm with hm | hm
        · exact Or.inl hm
        · exact Or.inr (List.mem_cons_of_mem _ hm)
      · intro z hz
        rcases List.mem_cons.mp hz with hz | hz
        · subst hz
          exact le_trans (Nat.le_of_not_le hc) hle
        · exact hall z hz

lemma minByKey_spec {α : Type} (f : α → Nat) (l : List α) (a : α)
    (h : minByKey f l = some a) : a ∈ l ∧ ∀ x ∈ l, f a ≤ f x := by
  cases l with
  | nil => exact Option.noConfusion h
  | cons x t =>
    rw [minByKey, Option.some.injEq] at h
    obtain ⟨hm, hle, hall⟩ := minFold_spec f t x
    rw [h] at hm hle hall
    constructor
    · rcases hm with hm | hm
      · rw [hm]
        exact List.mem_cons_self _ _
      · exact List.mem_cons_of_mem _ hm
    · intro z hz
      rcases List.mem_cons.mp hz with hz | hz
      · rw [hz]
        exact hle
      · exact hall z hz

lemma maxByKey_spec {α : Type} (f : α → Nat) (l : List α) (a : α)
    (h : maxByKey f l = some a) : a ∈ l ∧ ∀ x ∈ l, f x ≤ f a := by
  cases l with
  | nil => exact Option.noConfusion h
  | cons x t =>
    rw [maxByKey, Option.some.injEq] at h
    obtain ⟨hm, hle, hall⟩ := maxFold_spec f t x
    rw [h] at hm hle hall
    constructor
    · rcases hm with hm | hm
      · rw [hm]
        exact List.mem_cons_self _ _
      · exact List.mem_cons_of_mem _ hm
    · intro z hz
      rcases List.mem_cons.mp hz with hz | hz
      · rw [hz]
        exact hle
      · exact hall z hz

lemma lowest_computed_clue_spec (ccs : List (ClueKey × Clue)) (kc : ClueKey × Clue)
    (h : Refiner.lowest_computed_clue ccs = some kc) :
    kc ∈ ccs ∧ kc.2.is_empty = false ∧
      ∀ kc2 ∈ ccs, kc2.2.is_empty = false → kc.2.count ≤ kc2.2.count := by
  obtain ⟨hmem, hmin⟩ := minByKey_spec _ _ _ h
  rw [List.mem_filter] at hmem
  refine ⟨hmem.1, ?_, ?_⟩
  · have := hmem.2
    simp only [Bool.not_eq_true'] at this
    exact this
  · intro kc2 h2 hne
    exact hmin kc2 (List.mem_filter.mpr ⟨h2, by simp [hne]⟩)

lemma max_cell_spec (c : Clue) (m : Cell) (h : c.max_cell = some m) :
    0 < c.cell m ∧ ∀ x, c.cell x ≤ c.cell m := by
  obtain ⟨hmem, hmax⟩ := maxByKey_spec _ _ _ h
  rw [List.mem_filter] at hmem
  constructor
  · simpa using hmem.2
  · intro x
    by_cases hx : 0 < c.cell x
    · exact hmax x (List.mem_filter.mpr ⟨by cases x <;> simp [Cell.all], by simpa using hx⟩)
    · omega

/-- C3 amended: every reveal performed by the refine loop (`solve_cell`)
picks a segment whose computed clue is non-empty and of **smallest** total
count among the non-empty computed clues, and reveals a color of largest
count within that clue. -/
theorem refiner_reveal_picks_lowest (solution : Puzzle) (s s2 : Solver)
    (h : Refiner.solve_cell solution s = some s2) :
    ∃ ccs kc mc pos,
      Solver.computed_clues s = some ccs ∧
      Refiner.lowest_computed_clue ccs = some kc ∧
      kc ∈ ccs ∧ kc.2.is_empty = false ∧
      (∀ kc2 ∈ ccs, kc2.2.is_empty = false → kc.2.count ≤ kc2.2.count) ∧
      kc.2.max_cell = some mc ∧ 0 < kc.2.cell mc ∧ (∀ x, kc.2.cell x ≤ kc.2.cell mc) ∧
      Refiner.find_segment_unsolved_cell_position solution s kc.1.1 kc.1.2 mc = some pos ∧
      s2 = ⟨{ s.puzzle with board := s.puzzle.board.insert pos mc },
        s.solution.insert pos mc⟩ := by
  unfold Refiner.solve_cell at h
  cases hcc : Solver.computed_clues s with
  | none => rw [hcc] at h; exact Option.noConfusion h
  | some ccs =>
    rw [hcc] at h
    simp only [Option.bind_eq_bind', Option.some_bind] at h
    cases hlow : Refiner.lowest_computed_clue ccs with
    | none => rw [hlow] at h; exact Option.noConfusion h
    | some kc =>
      rw [hlow] at h
      simp only [Option.bind_eq_bind', Option.some_bind] at h
      cases hmax : kc.2.max_cell with
      | none => rw [hmax] at h; exact Option.noConfusion h
      | some mc =>
        rw [hmax] at h
        simp only [Option.bind_eq_bind', Option.some_bind] at h
        cases hpos : Refiner.find_segment_unsolved_cell_position solution s kc.1.1 kc.1.2 mc with
        | none => rw [hpos] at h; exact Option.noConfusion h
        | some pos =>
          rw [hpos] at h
          simp only [Option.bind_eq_bind', Option.some_bind, Option.some.injEq] at h
          obtain ⟨hmem, hne, hmin⟩ := lowest_computed_clue_spec ccs kc hlow
          obtain ⟨hpos2, hmaxall⟩ := max_cell_spec kc.2 mc hmax
          exact ⟨ccs, kc, mc, pos, rfl, hlow, hmem, hne, hmin, hmax, hpos2, hmaxall,
            hpos, h.symm⟩

/-- C3 counterexample: a concrete refine-loop iteration (radius-1 solution
puzzle, cleared, solver stuck with no progress) in which the chosen clue has
total count 2 while another non-empty computed clue has total count 3 — the
reveal does **not** come from the largest-count clue. -/
theorem refiner_reveal_not_largest :
    Solver.solve exSolver 30 = some (exSolver, false) ∧
    Solver.computed_clues exSolver = some exClueTable ∧
    Refiner.lowest_computed_clue exClueTable = some ((Direction.XY, -1), ⟨1, 1, 0⟩) ∧
    ((Direction.XY, 0), (⟨2, 1, 0⟩ : Clue)) ∈ exClueTable ∧
    Clue.is_empty ⟨2, 1, 0⟩ = false ∧
    Clue.count ⟨1, 1, 0⟩ < Clue.count ⟨2, 1, 0⟩ ∧
    Puzzle.with_clues exSolutionBoard = some exSolutionPuzzle ∧
    Puzzle.clear exSolutionPuzzle = some exPuzzle ∧
    Solver.new exPuzzle = exSolver := by
  refine ⟨by rfl, by rfl, by rfl, by decide, by decide, by decide, by rfl, by rfl, by rfl⟩

/-- Witness for C3 on the concrete stuck solver. -/
theorem refiner_reveal_picks_lowest_witness :
    ∃ ccs kc mc pos,
      Solver.computed_clues exSolver = some ccs ∧
      Refiner.lowest_computed_clue ccs = some kc ∧
      kc ∈ ccs ∧ kc.2.is_empty = false ∧
      (∀ kc2 ∈ ccs, kc2.2.is_empty = false → kc.2.count ≤ kc2.2.count) ∧
      kc.2.max_cell = some mc ∧ 0 < kc.2.cell mc ∧ (∀ x, kc.2.cell x ≤ kc.2.cell mc) ∧
      Refiner.find_segment_unsolved_cell_position exSolutionPuzzle exSolver kc.1.1 kc.1.2 mc =
        some pos ∧
      (⟨⟨⟨⟨Position.zero, 1⟩, [(⟨-1, 0⟩, Cell.Green)]⟩, exClueTable⟩,
          ⟨⟨Position.zero, 1⟩, [(⟨-1, 0⟩, Cell.Green)]⟩⟩ : Solver) =
        ⟨{ exSolver.puzzle with board := exSolver.puzzle.board.insert pos mc },
          exSolver.solution.insert pos mc⟩ :=
  refiner_reveal_picks_lowest exSolutionPuzzle exSolver
    ⟨⟨⟨⟨Position.zero, 1⟩, [(⟨-1, 0⟩, Cell.Green)]⟩, exClueTable⟩,
      ⟨⟨Position.zero, 1⟩, [(⟨-1, 0⟩, Cell.Green)]⟩⟩ (by rfl)


/-! ## C10: the clue-table lookups in `computed_clues` cannot fail -/

lemma axis_add (p q : Position) (a : Axis) : (p.add q).axis a = p.axis a + q.axis a := by
  cases a <;> simp [Position.add, Position.axis, Position.z] <;> ring

lemma axis_sub (p q : Position) (a : Axis) : (p.sub q).axis a = p.axis a - q.axis a := by
  cases a <;> simp [Position.sub, Position.axis, Position.z] <;> ring

lemma axis_mul (p : Position) (k : Int) (a : Axis) : (p.mul k).axis a = p.axis a * k := by
  cases a <;> simp [Position.mul, Position.axis, Position.z] <;> ring

lemma unit_pos_axis (d : Direction) : d.unit.axis d.positive_axis = 1 := by
  cases d <;> decide

lemma distance_axis_le (p : Position) (a : Axis) : |p.axis a| ≤ p.distance := by
  cases a
  · exact le_trans (le_max_left _ _) (le_max_left _ _)
  · exact le_trans (le_max_right _ _) (le_max_left _ _)
  · exact le_max_right _ _

lemma not_contains_of_axis (h : Hexagon) (p : Position) (a : Axis)
    (hgt : h.radius < |(p.sub h.origin).axis a|) : h.contains p = false := by
  unfold Hexagon.contains
  apply decide_eq_false
  intro hle
  exact absurd (le_trans (distance_axis_le (p.sub h.origin) a) hle) (not_le.mpr hgt)

lemma position_axis (l : Line) (d : Int) (a : Axis) :
    (l.position d).axis a = l.origin.axis a + l.direction.unit.axis a * d := by
  unfold Line.position
  rw [axis_add, axis_mul]

lemma walkBack_isSome (h : Hexagon) (l : Line) :
    ∀ (fuel : Nat) (t : Int),
      (∃ s : Nat, s < fuel ∧ h.contains (l.position (-(t + (s : Int) + 1))) = false) →
      (walkBack h l t fuel).isSome := by
  intro fuel
  induction fuel with
  | zero =>
    rintro t ⟨s, hs, _⟩
    exact absurd hs (Nat.not_lt_zero s)
  | succ f ih =>
    rintro t ⟨s, hs, hcs⟩
    unfold walkBack
    by_cases hc : h.contains (l.position (-(t + 1))) = true
    · rw [if_pos hc]
      apply ih
      cases s with
      | zero =>
        exfalso
        push_cast at hcs
        rw [show (-(t + 0 + 1) : Int) = (-(t + 1)) by ring, hc] at hcs
        exact Bool.noConfusion hcs
      | succ s2 =>
        refine ⟨s2, Nat.lt_of_succ_lt_succ hs, ?_⟩
        have : (-(t + 1 + (s2 : Int) + 1)) = (-(t + ((s2 + 1 : Nat) : Int) + 1)) := by
          push_cast
          ring
        rw [this]
        exact hcs
    · rw [if_neg hc]
      exact rfl

lemma hexagon_segment_isSome (h : Hexagon) (dist : Int) (dir : Direction)
    (hd : |dist| ≤ h.radius) : (h.segment dist dir).isSome := by
  have hr0 : 0 ≤ h.radius := le_trans (abs_nonneg dist) hd
  unfold Hexagon.segment
  rw [if_neg (not_lt.mpr hd)]
  set l : Line := ⟨h.origin.add ((dir.rotate.unit).mul dist), dir⟩ with hl
  have hκ : dir.rotate.unit.axis dir.positive_axis = 0 ∨
      dir.rotate.unit.axis dir.positive_axis = 1 := by
    cases dir <;> simp [Direction.rotate, Direction.unit, Direction.positive_axis,
      Direction.axes, Position.axis, Position.z] <;> decide
  set c0 : Int := dir.rotate.unit.axis dir.positive_axis * dist with hc0
  have hc0le : c0 ≤ h.radius := by
    rcases hκ with hκ | hκ
    · rw [hc0, hκ]
      simpa using hr0
    · rw [hc0, hκ, one_mul]
      exact le_trans (le_abs_self dist) hd
  have horig : l.origin.axis dir.positive_axis = h.origin.axis dir.positive_axis + c0 := by
    rw [hl]
    show (h.origin.add ((dir.rotate.unit).mul dist)).axis dir.positive_axis = _
    rw [axis_add, axis_mul]
  have hwb : (walkBack h l 0 (2 * h.radius.toNat + 2)).isSome := by
    apply walkBack_isSome
    refine ⟨(c0 + h.radius).toNat, ?_, ?_⟩
    · have h1 : c0 + h.radius ≤ 2 * h.radius := by omega
      have h2 : (c0 + h.radius).toNat ≤ (2 * h.radius).toNat := Int.toNat_le_toNat h1
      omega
    · have hge : (c0 + h.radius : Int) ≤ (((c0 + h.radius).toNat : Nat) : Int) :=
        Int.self_le_toNat _
      apply not_contains_of_axis h _ dir.positive_axis
      rw [axis_sub, position_axis, horig, unit_pos_axis]
      refine lt_of_lt_of_le
        (show h.radius < (((c0 + h.radius).toNat : Nat) : Int) + 1 - c0 by omega) ?_
      have h2 : -(h.origin.axis dir.positive_axis + c0 +
          1 * (-(0 + (((c0 + h.radius).toNat : Nat) : Int) + 1)) -
            h.origin.axis dir.positive_axis) =
          (((c0 + h.radius).toNat : Nat) : Int) + 1 - c0 := by ring
      rw [← h2]
      exact neg_le_abs _
  show (match walkBack h l 0 (2 * h.radius.toNat + 2) with
    | none => none
    | some start => Segment.new start (h.radius * 2 - |dist| + 1) dir).isSome = true
  cases hwb2 : walkBack h l 0 (2 * h.radius.toNat + 2) with
  | none => rw [hwb2] at hwb; exact Bool.noConfusion hwb
  | some start =>
    show (Segment.new start (h.radius * 2 - |dist| + 1) dir).isSome = true
    unfold Segment.new
    rw [if_pos (show (0 : Int) < h.radius * 2 - |dist| + 1 by
      have := abs_nonneg dist
      omega)]
    rfl

lemma mem_intRange (lo hi d : Int) : d ∈ intRange lo hi ↔ lo ≤ d ∧ d ≤ hi := by
  unfold intRange
  constructor
  · intro hd
    obtain ⟨i, hi2, he⟩ := List.mem_map.mp hd
    rw [List.mem_range] at hi2
    omega
  · intro hd
    refine List.mem_map.mpr ⟨(d - lo).toNat, ?_, ?_⟩
    · rw [List.mem_range]
      omega
    · omega

lemma mapM_pair_keys {β : Type} (f : Int → Option (Int × β)) :
    ∀ l : List Int, (∀ d ∈ l, ∃ b, f d = some (d, b)) →
      ∃ ys, l.mapM f = some ys ∧ ys.map Prod.fst = l := by
  intro l
  induction l with
  | nil => intro _; exact ⟨[], rfl, rfl⟩
  | cons d t ih =>
    intro hf
    obtain ⟨b, hb⟩ := hf d (List.mem_cons_self _ _)
    obtain ⟨ys, hys, hkeys⟩ := ih (fun x hx => hf x (List.mem_cons_of_mem _ hx))
    refine ⟨(d, b) :: ys, ?_, ?_⟩
    · rw [List.mapM_cons, hb, hys]
      rfl
    · simp [hkeys]

lemma segments_keys (h : Hexagon) (dir : Direction) :
    ∃ segs, h.segments dir = some segs ∧
      segs.map Prod.fst = intRange (-h.radius) h.radius := by
  unfold Hexagon.segments
  apply mapM_pair_keys
  intro d hd
  rw [mem_intRange] at hd
  have habs : |d| ≤ h.radius := abs_le.mpr ⟨by omega, hd.2⟩
  have := hexagon_segment_isSome h d dir habs
  cases hseg : h.segment d dir with
  | none => rw [hseg] at this; exact Bool.noConfusion this
  | some seg => exact ⟨seg, rfl⟩

lemma board_clues_keys (b : Board) :
    ∃ L, b.clues = some L ∧ L.map Prod.fst = keyList b.hexagon.radius := by
  obtain ⟨s1, hs1, hk1⟩ := segments_keys b.hexagon Direction.XY
  obtain ⟨s2, hs2, hk2⟩ := segments_keys b.hexagon Direction.YZ
  obtain ⟨s3, hs3, hk3⟩ := segments_keys b.hexagon Direction.ZX
  unfold Board.clues
  rw [Direction.normalizedL]
  simp only [List.mapM_cons, List.mapM_nil, hs1, hs2, hs3, Option.bind_eq_bind',
    Option.some_bind, Option.map_some', Option.pure_def, Option.some.injEq]
  refine ⟨_, rfl, ?_⟩
  unfold keyList
  rw [Direction.normalizedL]
  simp only [List.flatten, List.flatMap_cons, List.flatMap_nil, List.map_append,
    List.append_nil, List.map_map]
  nth_rewrite 3 [← hk3]
  nth_rewrite 2 [← hk2]
  nth_rewrite 1 [← hk1]
  simp only [List.map_map]
  rfl

lemma alookup_foldl_ainsert {κ ν : Type} [DecidableEq κ] (k : κ) :
    ∀ (entries : List (κ × ν)) (t0 : List (κ × ν)),
      (alookup k (entries.foldl (fun t kc => ainsert kc.1 kc.2 t) t0)).isSome ↔
        k ∈ entries.map Prod.fst ∨ (alookup k t0).isSome := by
  intro entries
  induction entries with
  | nil => intro t0; simp
  | cons kc t ih =>
    intro t0
    rw [List.foldl_cons]
    rw [ih]
    simp only [List.map_cons, List.mem_cons]
    constructor
    · rintro (h | h)
      · exact Or.inl (Or.inr h)
      · rw [alookup_ainsert] at h
        by_cases he : kc.1 = k
        · exact Or.inl (Or.inl he.symm)
        · rw [if_neg he] at h
          exact Or.inr h
    · rintro ((h | h) | h)
      · right
        rw [alookup_ainsert, if_pos h.symm]
        rfl
      · exact Or.inl h
      · right
        rw [alookup_ainsert]
        by_cases he : kc.1 = k
        · rw [if_pos he]
          rfl
        · rwa [if_neg he]

lemma alookup_clueTable_isSome (entries : List (ClueKey × Clue)) (k : ClueKey) :
    (alookup k (Puzzle.clueTable entries)).isSome ↔ k ∈ entries.map Prod.fst := by
  unfold Puzzle.clueTable
  rw [alookup_foldl_ainsert]
  simp [alookup]

lemma updateClues_isSome (sol : List (ClueKey × Clue)) :
    ∀ table, (∀ k ∈ sol.map Prod.fst, (alookup k table).isSome) →
      (Solver.updateClues table sol).isSome := by
  induction sol with
  | nil => intro table _; rfl
  | cons kc t ih =>
    intro table hall
    obtain ⟨k, sc⟩ := kc
    have hk : (alookup k table).isSome := hall k (by simp)
    unfold Solver.updateClues
    cases hl : alookup k table with
    | none => rw [hl] at hk; exact Bool.noConfusion hk
    | some pc =>
      apply ih
      intro k2 hk2
      rw [alookup_ainsert]
      by_cases he : k = k2
      · rw [if_pos he]
        rfl
      · rw [if_neg he]
        exact hall k2 (by simp [hk2])

/-- C10: for every solver whose puzzle was built by `Puzzle::with_clues`
(possibly followed by `clear()`), and whose solution board has the same radius
as the board the clues were derived from (the solution starts as a copy of the
puzzle's board and is only ever mutated by `insert`, which never touches the
hexagon), `computed_clues` succeeds: in particular the clue-table lookup
(`clues.get(&key).cloned().unwrap()`) succeeds for every key produced by the
solution board's `clues()`. -/
theorem computed_clues_lookup_total (b sBoard : Board) (p q : Puzzle)
    (hwc : Puzzle.with_clues b = some p)
    (hq : q = p ∨ p.clear = some q)
    (hrad : sBoard.hexagon.radius = b.hexagon.radius) :
    (Solver.computed_clues ⟨q, sBoard⟩).isSome := by
  obtain ⟨Lb, hLb, hLbk⟩ := board_clues_keys b
  have hpclues : p.clues = Puzzle.clueTable Lb := by
    unfold Puzzle.with_clues at hwc
    rw [hLb] at hwc
    simp only [Option.map_some', Option.some.injEq] at hwc
    rw [← hwc]
  have hqclues : q.clues = Puzzle.clueTable Lb := by
    rcases hq with hq | hq
    · rw [hq, hpclues]
    · unfold Puzzle.clear at hq
      cases hb : Board.new p.board.hexagon.radius with
      | none => rw [hb] at hq; exact Option.noConfusion hq
      | some b2 =>
        rw [hb] at hq
        simp only [Option.map_some', Option.some.injEq] at hq
        rw [← hq, hpclues]
  obtain ⟨Ls, hLs, hLsk⟩ := board_clues_keys sBoard
  unfold Solver.computed_clues
  show (Option.bind sBoard.clues fun solution_clues =>
    Solver.updateClues q.clues solution_clues).isSome
  rw [hLs]
  simp only [Option.some_bind]
  rw [hqclues]
  apply updateClues_isSome
  intro k hk
  rw [alookup_clueTable_isSome, hLbk]
  rw [hLsk, hrad] at hk
  exact hk

/-- Witness for C10 on the concrete radius-1 example puzzle. -/
theorem computed_clues_lookup_total_witness :
    (Solver.computed_clues ⟨exPuzzle, ⟨⟨Position.zero, 1⟩, []⟩⟩).isSome :=
  computed_clues_lookup_total exSolutionBoard ⟨⟨Position.zero, 1⟩, []⟩
    exSolutionPuzzle exPuzzle (by rfl) (Or.inr (by rfl)) (by rfl)



/-! ## C7: hexagon iteration, and C2: the board boundary invariant -/


lemma ringSides_stop (s : Segment) (fuel : Nat) (hd : s.direction.rotate = Direction.YZ) :
    ringSides s (fuel + 1) = some s.positions := by
  conv_lhs => rw [ringSides]
  rw [if_pos hd]

lemma ringSides_step (s : Segment) (fuel : Nat) (hd : ¬s.direction.rotate = Direction.YZ)
    (hlen : 0 < s.length) :
    ringSides s (fuel + 1) =
      (ringSides ⟨⟨s.line.position s.length, s.direction.rotate⟩, s.length⟩ fuel).map
        (fun rest => s.positions ++ rest) := by
  conv_lhs => rw [ringSides]
  rw [if_neg hd]
  unfold Segment.new
  rw [if_pos hlen]

lemma sideSeg_next (o : Position) (k : Int) (j : Nat) (hj : j < 5) :
    (⟨⟨(sideSeg o k j).line.position (sideSeg o k j).length,
        (sideSeg o k j).direction.rotate⟩, (sideSeg o k j).length⟩ : Segment) =
      sideSeg o k (j + 1) := by
  interval_cases j <;>
    simp only [sideSeg, sideDir, sideC, sideU, Segment.mk.injEq, Line.mk.injEq,
      Line.position, Direction.rotate, Direction.unit, Position.add, Position.mul,
      Position.mk.injEq, and_true, true_and] <;>
    refine ⟨⟨by ring, by ring⟩, rfl⟩

lemma sideSeg_positions (o : Position) (k : Int) (j : Nat) (hj : j < 6) :
    (sideSeg o k j).positions = sideList o k j := by
  interval_cases j <;> rfl

lemma ring_posList_eq (o : Position) (k : Int) (hk : 0 < k) :
    Ring.posList ⟨o, k⟩ = some (ringClosed o k) := by
  have hseg : Ring.segment ⟨o, k⟩ Direction.XY = some (sideSeg o k 0) := by
    unfold Ring.segment Ring.corner Segment.new
    rw [if_pos hk]
    rfl
  unfold Ring.posList
  rw [hseg]
  show ringSides (sideSeg o k 0) 6 = some (ringClosed o k)
  have h5 : ringSides (sideSeg o k 5) 1 = some (sideList o k 5) := by
    rw [ringSides_stop _ 0 (by rfl), sideSeg_positions o k 5 (by omega)]
  have h4 : ringSides (sideSeg o k 4) 2 = some (sideList o k 4 ++ sideList o k 5) := by
    rw [ringSides_step _ 1 (by simp [sideSeg, sideDir, Segment.direction, Direction.rotate]) hk, sideSeg_next o k 4 (by omega), h5,
      Option.map_some', sideSeg_positions o k 4 (by omega)]
  have h3 : ringSides (sideSeg o k 3) 3 =
      some (sideList o k 3 ++ (sideList o k 4 ++ sideList o k 5)) := by
    rw [ringSides_step _ 2 (by simp [sideSeg, sideDir, Segment.direction, Direction.rotate]) hk, sideSeg_next o k 3 (by omega), h4,
      Option.map_some', sideSeg_positions o k 3 (by omega)]
  have h2 : ringSides (sideSeg o k 2) 4 =
      some (sideList o k 2 ++ (sideList o k 3 ++ (sideList o k 4 ++ sideList o k 5))) := by
    rw [ringSides_step _ 3 (by simp [sideSeg, sideDir, Segment.direction, Direction.rotate]) hk, sideSeg_next o k 2 (by omega), h3,
      Option.map_some', sideSeg_positions o k 2 (by omega)]
  have h1 : ringSides (sideSeg o k 1) 5 =
      some (sideList o k 1 ++ (sideList o k 2 ++ (sideList o k 3 ++
        (sideList o k 4 ++ sideList o k 5)))) := by
    rw [ringSides_step _ 4 (by simp [sideSeg, sideDir, Segment.direction, Direction.rotate]) hk, sideSeg_next o k 1 (by omega), h2,
      Option.map_some', sideSeg_positions o k 1 (by omega)]
  rw [ringSides_step _ 5 (by simp [sideSeg, sideDir, Segment.direction, Direction.rotate]) hk, sideSeg_next o k 0 (by omega), h1,
    Option.map_some', sideSeg_positions o k 0 (by omega)]
  rfl

lemma sideList_length (o : Position) (k : Int) (j : Nat) :
    (sideList o k j).length = k.toNat := by
  simp [sideList]

lemma ringClosed_length (o : Position) (k : Int) :
    (ringClosed o k).length = 6 * k.toNat := by
  simp [ringClosed, sideList_length]
  ring

lemma mem_sideList (o : Position) (k : Int) (j : Nat) (p : Position) :
    p ∈ sideList o k j ↔
      ∃ i : Nat, i < k.toNat ∧ p = (o.add ((sideC j).mul k)).add ((sideU j).mul (i : Int)) := by
  simp only [sideList, List.mem_map, List.mem_range]
  constructor
  · rintro ⟨i, hi, rfl⟩
    exact ⟨i, hi, rfl⟩
  · rintro ⟨i, hi, rfl⟩
    exact ⟨i, hi, rfl⟩

lemma distance_le_iff (p : Position) (k : Int) :
    p.distance ≤ k ↔ -k ≤ p.x ∧ p.x ≤ k ∧ -k ≤ p.y ∧ p.y ≤ k ∧ -k ≤ p.z ∧ p.z ≤ k := by
  unfold Position.distance
  rw [max_le_iff, max_le_iff, abs_le, abs_le, abs_le]
  tauto

lemma le_abs_of_eq_or_neg {e k : Int} (h : e = k ∨ e = -k) : k ≤ |e| := by
  rcases h with rfl | rfl
  · exact le_abs_self e
  · rw [abs_neg]
    exact le_abs_self k

lemma distance_eq_of (p : Position) (k : Int) (hle : p.distance ≤ k)
    (hc : k ≤ |p.x| ∨ k ≤ |p.y| ∨ k ≤ |p.z|) : p.distance = k := by
  refine le_antisymm hle ?_
  rcases hc with hc | hc | hc
  · exact le_trans hc (distance_axis_le p Axis.X)
  · exact le_trans hc (distance_axis_le p Axis.Y)
  · exact le_trans hc (distance_axis_le p Axis.Z)

lemma sideList_distance (o : Position) (k : Int) (j : Nat) (hk : 0 < k) (hj : j < 6)
    (p : Position) (hp : p ∈ sideList o k j) : (p.sub o).distance = k := by
  rw [mem_sideList] at hp
  obtain ⟨i, hi, rfl⟩ := hp
  have hik : (i : Int) < k := by omega
  have hi0 : (0 : Int) ≤ (i : Int) := by omega
  interval_cases j <;>
    (refine distance_eq_of _ k ?_ ?_
     · rw [distance_le_iff]
       simp only [Position.sub, Position.add, Position.mul, Position.z, sideC, sideU]
       omega
     · simp only [Position.sub, Position.add, Position.mul, Position.z, sideC, sideU]
       first
         | (refine Or.inl (le_abs_of_eq_or_neg (Or.inl ?_)); ring1)
         | (refine Or.inl (le_abs_of_eq_or_neg (Or.inr ?_)); ring1)
         | (refine Or.inr (Or.inl (le_abs_of_eq_or_neg (Or.inl ?_))); ring1)
         | (refine Or.inr (Or.inl (le_abs_of_eq_or_neg (Or.inr ?_))); ring1)
         | (refine Or.inr (Or.inr (le_abs_of_eq_or_neg (Or.inl ?_))); ring1)
         | (refine Or.inr (Or.inr (le_abs_of_eq_or_neg (Or.inr ?_))); ring1))

lemma sideList_nodup (o : Position) (k : Int) (j : Nat) (hj : j < 6) :
    (sideList o k j).Nodup := by
  unfold sideList
  refine List.Nodup.map ?_ (List.nodup_range _)
  intro i1 i2 he
  interval_cases j <;>
    (simp only [Position.add, Position.mul, sideC, sideU, Position.mk.injEq] at he
     omega)

lemma sideList_disjoint (o : Position) (k : Int) (j1 j2 : Nat)
    (hlt : j1 < j2) (hj2 : j2 < 6) :
    ∀ p ∈ sideList o k j1, p ∉ sideList o k j2 := by
  intro p h1 h2
  rw [mem_sideList] at h1 h2
  obtain ⟨i1, hi1, he1⟩ := h1
  obtain ⟨i2, hi2, he2⟩ := h2
  rw [he1] at he2
  have hb1 : (i1 : Int) < k := by omega
  have hb2 : (i2 : Int) < k := by omega
  have hz1 : (0 : Int) ≤ (i1 : Int) := by omega
  have hz2 : (0 : Int) ≤ (i2 : Int) := by omega
  have hk : (0 : Int) < k := by omega
  interval_cases j2 <;> interval_cases j1 <;>
    (simp only [Position.add, Position.mul, sideC, sideU, Position.mk.injEq] at he2
     omega)

lemma ringClosed_distance (o : Position) (k : Int) (hk : 0 < k) (p : Position)
    (hp : p ∈ ringClosed o k) : (p.sub o).distance = k := by
  unfold ringClosed at hp
  simp only [List.mem_append] at hp
  rcases hp with h | h | h | h | h | h
  · exact sideList_distance o k 0 hk (by omega) p h
  · exact sideList_distance o k 1 hk (by omega) p h
  · exact sideList_distance o k 2 hk (by omega) p h
  · exact sideList_distance o k 3 hk (by omega) p h
  · exact sideList_distance o k 4 hk (by omega) p h
  · exact sideList_distance o k 5 hk (by omega) p h

lemma ringClosed_nodup (o : Position) (k : Int) : (ringClosed o k).Nodup := by
  unfold ringClosed
  have hd : ∀ j1 j2, j1 < j2 → j2 < 6 → List.Disjoint (sideList o k j1) (sideList o k j2) :=
    fun j1 j2 h1 h2 => sideList_disjoint o k j1 j2 h1 h2
  refine List.Nodup.append (sideList_nodup o k 0 (by omega)) ?_ ?_
  · refine List.Nodup.append (sideList_nodup o k 1 (by omega)) ?_ ?_
    · refine List.Nodup.append (sideList_nodup o k 2 (by omega)) ?_ ?_
      · refine List.Nodup.append (sideList_nodup o k 3 (by omega)) ?_ ?_
        · exact List.Nodup.append (sideList_nodup o k 4 (by omega))
            (sideList_nodup o k 5 (by omega)) (hd 4 5 (by omega) (by omega))
        · rw [List.disjoint_append_right]
          exact ⟨hd 3 4 (by omega) (by omega), hd 3 5 (by omega) (by omega)⟩
      · rw [List.disjoint_append_right, List.disjoint_append_right]
        exact ⟨hd 2 3 (by omega) (by omega),
          hd 2 4 (by omega) (by omega), hd 2 5 (by omega) (by omega)⟩
    · rw [List.disjoint_append_right, List.disjoint_append_right,
        List.disjoint_append_right]
      exact ⟨hd 1 2 (by omega) (by omega), hd 1 3 (by omega) (by omega),
        hd 1 4 (by omega) (by omega), hd 1 5 (by omega) (by omega)⟩
  · rw [List.disjoint_append_right, List.disjoint_append_right,
      List.disjoint_append_right, List.disjoint_append_right]
    exact ⟨hd 0 1 (by omega) (by omega), hd 0 2 (by omega) (by omega),
      hd 0 3 (by omega) (by omega), hd 0 4 (by omega) (by omega),
      hd 0 5 (by omega) (by omega)⟩

lemma mapM_eq_map {α β : Type} (f : α → Option β) (g : α → β) :
    ∀ l : List α, (∀ a ∈ l, f a = some (g a)) → l.mapM f = some (l.map g) := by
  intro l
  induction l with
  | nil => intro _; rfl
  | cons a t ih =>
    intro hf
    rw [List.mapM_cons, hf a (List.mem_cons_self _ _),
      ih (fun x hx => hf x (List.mem_cons_of_mem _ hx))]
    rfl

lemma hexagon_posList_eq (h : Hexagon) (hr : 0 < h.radius) :
    h.posList = some (h.origin ::
      (List.range h.radius.toNat).flatMap
        (fun k : Nat => ringClosed h.origin ((k : Int) + 1))) := by
  unfold Hexagon.posList
  rw [if_neg (by omega)]
  rw [mapM_eq_map _ (fun k : Nat => ringClosed h.origin ((k : Int) + 1)) _
    (fun a _ => ring_posList_eq h.origin ((a : Int) + 1) (by omega))]
  simp only [Option.map_some', Option.some.injEq]
  rw [List.flatMap_def]

lemma range_sum_6 : ∀ n : Nat,
    ((List.range n).map (fun k => 6 * (k + 1))).sum = 3 * n * (n + 1) := by
  intro n
  induction n with
  | zero => rfl
  | succ m ih =>
    rw [List.range_succ, List.map_append, List.sum_append, ih]
    simp
    ring

lemma hex_flat_length (o : Position) (n : Nat) :
    ((List.range n).flatMap (fun k : Nat => ringClosed o ((k : Int) + 1))).length =
      3 * n * (n + 1) := by
  rw [List.length_flatMap]
  rw [← range_sum_6 n]
  congr 1
  refine List.map_congr_left ?_
  intro a ha
  show (ringClosed o ((a : Int) + 1)).length = 6 * (a + 1)
  rw [ringClosed_length]
  omega

lemma hex_flat_distance (o : Position) (n : Nat) (p : Position)
    (hp : p ∈ (List.range n).flatMap (fun k : Nat => ringClosed o ((k : Int) + 1))) :
    0 < (p.sub o).distance ∧ (p.sub o).distance ≤ (n : Int) := by
  rw [List.mem_flatMap] at hp
  obtain ⟨k, hk, hpk⟩ := hp
  rw [List.mem_range] at hk
  rw [ringClosed_distance o ((k : Int) + 1) (by omega) p hpk]
  omega

lemma hex_flat_nodup (o : Position) : ∀ n : Nat,
    ((List.range n).flatMap (fun k : Nat => ringClosed o ((k : Int) + 1))).Nodup := by
  intro n
  induction n with
  | zero => exact List.nodup_nil
  | succ m ih =>
    rw [List.range_succ, List.flatMap_append]
    refine List.Nodup.append ih ?_ ?_
    · simp only [List.flatMap_cons, List.flatMap_nil, List.append_nil]
      exact ringClosed_nodup o ((m : Int) + 1)
    · intro p hp1 hp2
      simp only [List.flatMap_cons, List.flatMap_nil, List.append_nil] at hp2
      have h1 := hex_flat_distance o m p hp1
      have h2 := ringClosed_distance o ((m : Int) + 1) (by omega) p hp2
      omega

/-- C7: for every hexagon of radius `r > 0`, iterating it yields exactly
`1 + 3·r·(r+1)` positions, each at hex-distance at most `r` from the origin,
and no position is yielded more than once. -/
theorem hexagon_iteration_spec (h : Hexagon) (hr : 0 < h.radius) :
    ∃ ps, h.posList = some ps ∧
      ps.length = 1 + 3 * h.radius.toNat * (h.radius.toNat + 1) ∧
      (∀ p ∈ ps, (p.sub h.origin).distance ≤ h.radius) ∧
      ps.Nodup := by
  refine ⟨_, hexagon_posList_eq h hr, ?_, ?_, ?_⟩
  · rw [List.length_cons, hex_flat_length]
    omega
  · intro p hp
    rcases List.mem_cons.mp hp with rfl | hp
    · have hz : (h.origin.sub h.origin).distance = 0 := by
        simp [Position.sub, Position.distance, Position.z]
      omega
    · have hd := hex_flat_distance h.origin h.radius.toNat p hp
      have hc : ((h.radius.toNat : Nat) : Int) = h.radius := Int.toNat_of_nonneg (by omega)
      omega
  · rw [List.nodup_cons]
    constructor
    · intro hmem
      have hd := hex_flat_distance h.origin h.radius.toNat h.origin hmem
      have hz : (h.origin.sub h.origin).distance = 0 := by
        simp [Position.sub, Position.distance, Position.z]
      omega
    · exact hex_flat_nodup h.origin h.radius.toNat

/-- Witness for C7 on a radius-2 hexagon centered at `(3, −4, 1)`. -/
theorem hexagon_iteration_spec_witness :
    ∃ ps, (Hexagon.mk ⟨3, -4⟩ 2).posList = some ps ∧
      ps.length = 1 + 3 * (Hexagon.mk ⟨3, -4⟩ 2).radius.toNat *
        ((Hexagon.mk ⟨3, -4⟩ 2).radius.toNat + 1) ∧
      (∀ p ∈ ps, (p.sub (Hexagon.mk ⟨3, -4⟩ 2).origin).distance ≤
        (Hexagon.mk ⟨3, -4⟩ 2).radius) ∧
      ps.Nodup :=
  hexagon_iteration_spec ⟨⟨3, -4⟩, 2⟩ (by decide)

lemma foldlM_option_inv_mem {α β : Type} (P : β → Prop) (f : β → α → Option β) :
    ∀ (l : List α), (∀ b a b2, a ∈ l → P b → f b a = some b2 → P b2) →
      ∀ (b b2 : β), P b → l.foldlM f b = some b2 → P b2 := by
  intro l
  induction l with
  | nil =>
    intro _ b b2 hb h
    simp only [List.foldlM_nil] at h
    cases h
    exact hb
  | cons a t ih =>
    intro hf b b2 hb h
    simp only [List.foldlM_cons] at h
    cases hfa : f b a with
    | none => rw [hfa] at h; exact Option.noConfusion h
    | some b1 =>
      rw [hfa] at h
      exact ih (fun b x b2 hx => hf b x b2 (List.mem_cons_of_mem _ hx)) b1 b2
        (hf b a b1 (List.mem_cons_self _ _) hb hfa) h

lemma contains_of_distance (h : Hexagon) (p : Position)
    (hd : (p.sub h.origin).distance ≤ h.radius) : h.contains p = true := by
  unfold Hexagon.contains
  exact decide_eq_true hd

lemma posList_contains (h : Hexagon) (hr : 0 < h.radius) (ps : List Position)
    (hps : h.posList = some ps) : ∀ p ∈ ps, h.contains p = true := by
  rw [hexagon_posList_eq h hr] at hps
  cases hps
  intro p hp
  apply contains_of_distance
  rcases List.mem_cons.mp hp with rfl | hp
  · have hz : (h.origin.sub h.origin).distance = 0 := by
      simp [Position.sub, Position.distance, Position.z]
    omega
  · have hd := hex_flat_distance h.origin h.radius.toNat p hp
    have hc : ((h.radius.toNat : Nat) : Int) = h.radius := Int.toNat_of_nonneg (by omega)
    omega

lemma insert_hexagon (b : Board) (p : Position) (c : Cell) :
    (b.insert p c).hexagon = b.hexagon := rfl

lemma boardInv_insert {b : Board} {p : Position} (c : Cell)
    (hb : BoardInv b) (hp : b.hexagon.contains p = true) : BoardInv (b.insert p c) := by
  intro kv hkv
  rcases mem_ainsert kv p c b.cells hkv with rfl | hkv2
  · exact hp
  · exact hb kv hkv2

lemma foldl_insert_hexagon (cells : List (Position × Cell)) :
    ∀ b0 : Board, (cells.foldl (fun b pc => b.insert pc.1 pc.2) b0).hexagon = b0.hexagon := by
  induction cells with
  | nil => intro b0; rfl
  | cons pc t ih => intro b0; rw [List.foldl_cons]; exact ih _

lemma foldl_insert_boardInv (cells : List (Position × Cell)) :
    ∀ b0 : Board, BoardInv b0 → (∀ pc ∈ cells, b0.hexagon.contains pc.1 = true) →
      BoardInv (cells.foldl (fun b pc => b.insert pc.1 pc.2) b0) := by
  induction cells with
  | nil => intro b0 hb _; exact hb
  | cons pc t ih =>
    intro b0 hb hc
    rw [List.foldl_cons]
    exact ih _ (boardInv_insert pc.2 hb (hc pc (List.mem_cons_self _ _)))
      (fun x hx => hc x (List.mem_cons_of_mem _ hx))

lemma mem_of_mem_enumFrom {α : Type} : ∀ (l : List α) (n : Nat) (x : Nat × α),
    x ∈ List.enumFrom n l → x.2 ∈ l := by
  intro l
  induction l with
  | nil => intro n x hx; exact absurd hx (List.not_mem_nil x)
  | cons a t ih =>
    intro n x hx
    rcases List.mem_cons.mp hx with rfl | hx
    · exact List.mem_cons_self _ _
    · exact List.mem_cons_of_mem _ (ih (n + 1) x hx)

lemma foldl_insert_enum_boardInv (draws : Nat → Cell) (ps : List (Nat × Position)) :
    ∀ b0 : Board, BoardInv b0 → (∀ ip ∈ ps, b0.hexagon.contains ip.2 = true) →
      BoardInv (ps.foldl (fun b ip => b.insert ip.2 (draws ip.1)) b0) := by
  induction ps with
  | nil => intro b0 hb _; exact hb
  | cons ip t ih =>
    intro b0 hb hc
    rw [List.foldl_cons]
    exact ih _ (boardInv_insert (draws ip.1) hb (hc ip (List.mem_cons_self _ _)))
      (fun x hx => hc x (List.mem_cons_of_mem _ hx))

/-- C2 counterexample: `Board::insert` does not check the boundary, so a
single out-of-boundary insert on a freshly constructed radius-1 board breaks
the invariant: the key `(2, 0, −2)` is stored but lies outside the hexagon. -/
theorem board_insert_breaks_boundary_invariant :
    Board.new 1 = some ⟨⟨Position.zero, 1⟩, []⟩ ∧
    alookup (⟨2, 0⟩ : Position)
      ((Board.insert ⟨⟨Position.zero, 1⟩, []⟩ ⟨2, 0⟩ Cell.Red).cells) = some Cell.Red ∧
    (Board.insert ⟨⟨Position.zero, 1⟩, []⟩ ⟨2, 0⟩ Cell.Red).hexagon.contains ⟨2, 0⟩ = false ∧
    ¬BoardInv (Board.insert ⟨⟨Position.zero, 1⟩, []⟩ ⟨2, 0⟩ Cell.Red) := by
  refine ⟨by rfl, by rfl, by decide, ?_⟩
  intro hinv
  have := hinv (⟨2, 0⟩, Cell.Red) (by decide)
  rw [show (Board.insert ⟨⟨Position.zero, 1⟩, []⟩ ⟨2, 0⟩ Cell.Red).hexagon.contains ⟨2, 0⟩ =
    false by decide] at this
  exact Bool.noConfusion this

/-- C2 amended: the boundary invariant holds for `new` and `random`
unconditionally, and for `insert`, `from_cells` and `random_from_hints`
provided the supplied positions lie within the boundary — `insert` itself
performs no boundary check, so out-of-boundary insertions violate it. -/
theorem board_boundary_invariant :
    (∀ (r : Int) (b : Board), Board.new r = some b → BoardInv b) ∧
    (∀ (b : Board) (p : Position) (c : Cell), BoardInv b →
      b.hexagon.contains p = true → BoardInv (b.insert p c)) ∧
    (∀ (r : Int) (cells : List (Position × Cell)) (b : Board),
      Board.from_cells r cells = some b →
      (∀ pc ∈ cells, b.hexagon.contains pc.1 = true) → BoardInv b) ∧
    (∀ (draws : Nat → Cell) (r : Int) (b : Board),
      Board.random draws r = some b → BoardInv b) ∧
    (∀ (choose : Nat → Hint → Option Cell) (r : Int) (hints : List (Position × Hint))
      (b : Board), Board.random_from_hints choose r hints = some b →
      (∀ ph ∈ hints, b.hexagon.contains ph.1 = true) → BoardInv b) := by
  have hnew : ∀ (r : Int) (b : Board), Board.new r = some b →
      b.cells = [] ∧ b.hexagon = ⟨Position.zero, r⟩ ∧ 0 < r := by
    intro r b h
    unfold Board.new Hexagon.zeroH Hexagon.new at h
    by_cases hr : 0 < r
    · rw [if_pos hr] at h
      cases h
      exact ⟨rfl, rfl, hr⟩
    · rw [if_neg hr] at h
      exact Option.noConfusion h
  refine ⟨?_, ?_, ?_, ?_, ?_⟩
  · intro r b h
    obtain ⟨hc, _, _⟩ := hnew r b h
    intro kv hkv
    rw [hc] at hkv
    exact absurd hkv (List.not_mem_nil kv)
  · intro b p c hb hp
    exact boardInv_insert c hb hp
  · intro r cells b h hall
    unfold Board.from_cells at h
    cases hb0 : Board.new r with
    | none => rw [hb0] at h; exact Option.noConfusion h
    | some b0 =>
      rw [hb0] at h
      simp only [Option.map_some', Option.some.injEq] at h
      obtain ⟨hc0, hh0, _⟩ := hnew r b0 hb0
      have hhex : b.hexagon = b0.hexagon := by
        rw [← h]
        exact foldl_insert_hexagon cells b0
      rw [← h]
      apply foldl_insert_boardInv cells b0
      · intro kv hkv
        rw [hc0] at hkv
        exact absurd hkv (List.not_mem_nil kv)
      · intro pc hpc
        rw [← hhex]
        exact hall pc hpc
  · intro draws r b h
    unfold Board.random at h
    cases hb0 : Board.new r with
    | none => rw [hb0] at h; exact Option.noConfusion h
    | some b0 =>
      rw [hb0] at h
      simp only [Option.bind_eq_bind', Option.some_bind] at h
      cases hps : b0.hexagon.posList with
      | none => rw [hps] at h; exact Option.noConfusion h
      | some ps =>
        rw [hps] at h
        simp only [Option.bind_eq_bind', Option.some_bind, Option.some.injEq] at h
        obtain ⟨hc0, hh0, hr⟩ := hnew r b0 hb0
        have hcont := posList_contains b0.hexagon (by rw [hh0]; exact hr) ps hps
        rw [← h]
        apply foldl_insert_enum_boardInv draws ps.enum b0
        · intro kv hkv
          rw [hc0] at hkv
          exact absurd hkv (List.not_mem_nil kv)
        · intro ip hip
          exact hcont ip.2 (mem_of_mem_enumFrom ps 0 ip hip)
  · intro choose r hints b h hall
    unfold Board.random_from_hints at h
    cases hb0 : Board.new r with
    | none => rw [hb0] at h; exact Option.noConfusion h
    | some b0 =>
      rw [hb0] at h
      simp only [Option.bind_eq_bind', Option.some_bind] at h
      obtain ⟨hc0, hh0, _⟩ := hnew r b0 hb0
      have hhex : b.hexagon = b0.hexagon := by
        refine foldlM_option_inv (fun bb => bb.hexagon = b0.hexagon) _ ?_ hints.enum b0 b rfl h
        intro bb a bb2 hP hstep
        cases hch : choose a.1 a.2.2 with
        | none => rw [hch] at hstep; exact Option.noConfusion hstep
        | some cc =>
          rw [hch] at hstep
          simp only [Option.map_some', Option.some.injEq] at hstep
          rw [← hstep]
          exact hP
      have hfin : BoardInv b ∧ b.hexagon = b0.hexagon := by
        refine foldlM_option_inv_mem (fun bb => BoardInv bb ∧ bb.hexagon = b0.hexagon)
          _ hints.enum ?_ b0 b ⟨?_, rfl⟩ h
        · intro bb ih bb2 hmem hPb hstep
          cases hch : choose ih.1 ih.2.2 with
          | none => rw [hch] at hstep; exact Option.noConfusion hstep
          | some cc =>
            rw [hch] at hstep
            simp only [Option.map_some', Option.some.injEq] at hstep
            rw [← hstep]
            refine ⟨boardInv_insert cc hPb.1 ?_, hPb.2⟩
            have hcont := hall ih.2 (mem_of_mem_enumFrom hints 0 ih hmem)
            rw [hhex] at hcont
            show (bb.hexagon).contains ih.2.1 = true
            rw [hPb.2]
            exact hcont
        · intro kv hkv
          rw [hc0] at hkv
          exact absurd hkv (List.not_mem_nil kv)
      exact hfin.1

/-- Witness for C2: inserting an in-boundary position preserves the invariant
on a concrete board. -/
theorem board_boundary_invariant_witness :
    BoardInv (Board.insert ⟨⟨Position.zero, 1⟩, []⟩ ⟨1, 0⟩ Cell.Red) :=
  board_boundary_invariant.2.1 ⟨⟨Position.zero, 1⟩, []⟩ ⟨1, 0⟩ Cell.Red
    (fun kv hkv => absurd hkv (List.not_mem_nil kv)) (by decide)

end Bestagons
